import Mathlib

/-!
Verification of the playground server core: a shallow embedding of the
snippet store (`openDatabase`, `Create`, `Retrieve`, `Update`, `Delete`,
`QueryByModified`), the executor frame protocol (`Start`, `handleFormat`,
`handleRun`, `reportBadLines`), the directive parser classification
(`parseFile`), the blob store, and the auth-token parser
(`parseAuthToken`), together with proofs of the specified properties.

Machine integers are modelled as `Int`/`Nat` with explicit wrap-around
where the Go code can overflow.  The BoltDB collaborator is modelled by
its documented semantics: buckets are byte-key ordered maps with
`Get`/`Put`/`Delete` and cursors supporting `Seek`/`Last`/`Prev`.
-/

/-! ## Go `time.Time` model

A `time.Time` instant is modelled by its Unix second count and the
nanosecond within the second (the data `dualKey` serialises).  `UTC()`
and `AddDate(0, 0, 0)` do not change the instant, so they are
identities of this model. -/

structure GoTime where
  sec : Int
  nsec : Nat
  deriving DecidableEq, Repr

/-- The zero `time.Time` (January 1, year 1, 00:00:00 UTC). -/
def goZeroTime : GoTime := ⟨-62135596800, 0⟩

/-- `t.IsZero()` of Go's `time.Time`. -/
def GoTime.isZero (t : GoTime) : Bool := t = goZeroTime

/-- `maxTime = time.Date(9999, 1, 1, 0, 0, 0, 0, time.UTC)`. -/
def maxTime : GoTime := ⟨253370764800, 0⟩

/-- `maxID = int64(math.MaxInt64)`. -/
def maxID : Int := 2 ^ 63 - 1

/-- Two's-complement wrap-around of `Int` into the `int64` range,
modelling Go `int64` arithmetic overflow. -/
def wrapInt64 (x : Int) : Int := (x + 2 ^ 63) % 2 ^ 64 - 2 ^ 63

/-- An `Int` lies in the `int64` range. -/
def isInt64 (x : Int) : Prop := -(2 ^ 63) ≤ x ∧ x < 2 ^ 63

instance (x : Int) : Decidable (isInt64 x) := by unfold isInt64; infer_instance

theorem wrapInt64_eq_self {x : Int} (h : isInt64 x) : wrapInt64 x = x := by
  obtain ⟨h1, h2⟩ := h
  unfold wrapInt64
  omega

theorem isInt64_wrapInt64 (x : Int) : isInt64 (wrapInt64 x) := by
  unfold wrapInt64 isInt64
  constructor <;> omega

/-! ## Byte-level key encodings

`idKey` and `dualKey` build big-endian byte keys so that BoltDB's
byte-wise key order agrees with the numeric order of the encoded
values. -/

/-- Big-endian base-256 encoding of `n` into `w` bytes (the model of
`binary.BigEndian.PutUint64` / `PutUint32`; `n` is already reduced
mod `2 ^ (8 * w)` by the callers). -/
def beBytes : Nat → Nat → List Nat
  | 0, _ => []
  | w + 1, n => (n / 256 ^ w) :: beBytes w (n % 256 ^ w)

theorem beBytes_length (w n : Nat) : (beBytes w n).length = w := by
  induction w generalizing n with
  | zero => rfl
  | succ w ih => simp [beBytes, ih]

/-- Go `bytes.Compare`: lexicographic byte-slice comparison. -/
def bytesCompare : List Nat → List Nat → Ordering
  | [], [] => .eq
  | [], _ :: _ => .lt
  | _ :: _, [] => .gt
  | a :: as, b :: bs =>
    match compare a b with
    | .eq => bytesCompare as bs
    | o => o

theorem bytesCompare_eq_iff {a b : List Nat} :
    bytesCompare a b = .eq ↔ a = b := by
  induction a generalizing b with
  | nil => cases b <;> simp [bytesCompare]
  | cons x xs ih =>
    cases b with
    | nil => simp [bytesCompare]
    | cons y ys =>
      rcases h : compare x y with he | he | he
      · have hxy : x < y := Nat.compare_eq_lt.mp h
        simp only [bytesCompare, h]
        constructor
        · intro hc; exact absurd hc (by simp)
        · intro hc
          injection hc with h1 h2
          omega
      · have hxy : x = y := Nat.compare_eq_eq.mp h
        subst hxy
        simp only [bytesCompare, h]
        rw [ih]
        constructor
        · intro hc; rw [hc]
        · intro hc; injection hc
      · have hxy : y < x := Nat.compare_eq_gt.mp h
        simp only [bytesCompare, h]
        constructor
        · intro hc; exact absurd hc (by simp)
        · intro hc
          injection hc with h1 h2
          omega

theorem bytesCompare_self (a : List Nat) : bytesCompare a a = .eq :=
  bytesCompare_eq_iff.mpr rfl

theorem bytesCompare_swap (a b : List Nat) :
    bytesCompare a b = .lt ↔ bytesCompare b a = .gt := by
  induction a generalizing b with
  | nil => cases b <;> simp [bytesCompare]
  | cons x xs ih =>
    cases b with
    | nil => simp [bytesCompare]
    | cons y ys =>
      rcases h : compare x y with he | he | he
      · have hxy : x < y := Nat.compare_eq_lt.mp h
        have h2 : compare y x = .gt := Nat.compare_eq_gt.mpr hxy
        simp [bytesCompare, h, h2]
      · have hxy : x = y := Nat.compare_eq_eq.mp h
        subst hxy
        have h2 : compare x x = .eq := Nat.compare_eq_eq.mpr rfl
        simp only [bytesCompare, h2]
        exact ih ys
      · have hxy : y < x := Nat.compare_eq_gt.mp h
        have h2 : compare y x = .lt := Nat.compare_eq_lt.mpr hxy
        simp [bytesCompare, h, h2]

theorem bytesCompare_lt_trans {a b c : List Nat}
    (hab : bytesCompare a b = .lt) (hbc : bytesCompare b c = .lt) :
    bytesCompare a c = .lt := by
  induction a generalizing b c with
  | nil =>
    cases b with
    | nil => simp [bytesCompare] at hab
    | cons y ys =>
      cases c with
      | nil => simp [bytesCompare] at hbc
      | cons z zs => simp [bytesCompare]
  | cons x xs ih =>
    cases b with
    | nil => simp [bytesCompare] at hab
    | cons y ys =>
      cases c with
      | nil => simp [bytesCompare] at hbc
      | cons z zs =>
        rcases hxy : compare x y with h1 | h1 | h1 <;>
          rcases hyz : compare y z with h2 | h2 | h2 <;>
            simp only [bytesCompare, hxy, hyz] at hab hbc ⊢
        · have : x < z :=
            lt_trans (Nat.compare_eq_lt.mp hxy) (Nat.compare_eq_lt.mp hyz)
          simp [Nat.compare_eq_lt.mpr this]
        · have hyzeq : y = z := Nat.compare_eq_eq.mp hyz
          subst hyzeq
          simp [hxy]
        · exact absurd hbc (by simp)
        · have hxyeq : x = y := Nat.compare_eq_eq.mp hxy
          subst hxyeq
          simp [hyz]
        · have hxyeq : x = y := Nat.compare_eq_eq.mp hxy
          subst hxyeq
          simp only [hyz]
          exact ih hab hbc
        · exact absurd hbc (by simp)
        · exact absurd hab (by simp)
        · exact absurd hab (by simp)
        · exact absurd hab (by simp)

/-- On equal-width encodings, byte order is numeric order. -/
theorem bytesCompare_beBytes (w : Nat) {a b : Nat}
    (ha : a < 256 ^ w) (hb : b < 256 ^ w) :
    bytesCompare (beBytes w a) (beBytes w b) = compare a b := by
  induction w generalizing a b with
  | zero =>
    interval_cases a
    interval_cases b
    rfl
  | succ w ih =>
    have hpos : 0 < 256 ^ w := Nat.pos_pow_of_pos w (by norm_num)
    have hma : a % 256 ^ w < 256 ^ w := Nat.mod_lt _ hpos
    have hmb : b % 256 ^ w < 256 ^ w := Nat.mod_lt _ hpos
    simp only [beBytes, bytesCompare]
    rcases h : compare (a / 256 ^ w) (b / 256 ^ w) with hd | hd | hd
    · have hlt : a / 256 ^ w < b / 256 ^ w := Nat.compare_eq_lt.mp h
      have hab : a < b := by
        by_contra hc
        push_neg at hc
        exact absurd (Nat.div_le_div_right hc :
          _ / 256 ^ w ≤ _ / 256 ^ w) (by omega)
      simp [Nat.compare_eq_lt.mpr hab]
    · have heq : a / 256 ^ w = b / 256 ^ w := Nat.compare_eq_eq.mp h
      rw [ih hma hmb]
      have hax : a = 256 ^ w * (a / 256 ^ w) + a % 256 ^ w :=
        (Nat.div_add_mod a (256 ^ w)).symm
      have hbx : b = 256 ^ w * (a / 256 ^ w) + b % 256 ^ w := by
        conv_lhs => rw [← Nat.div_add_mod b (256 ^ w)]
        rw [heq]
      rcases Nat.lt_trichotomy (a % 256 ^ w) (b % 256 ^ w) with hc | hc | hc
      · rw [Nat.compare_eq_lt.mpr hc, Nat.compare_eq_lt.mpr (by omega)]
      · rw [Nat.compare_eq_eq.mpr hc, Nat.compare_eq_eq.mpr (by omega)]
      · rw [Nat.compare_eq_gt.mpr hc, Nat.compare_eq_gt.mpr (by omega)]
    · have hlt : b / 256 ^ w < a / 256 ^ w := Nat.compare_eq_gt.mp h
      have hab : b < a := by
        by_contra hc
        push_neg at hc
        exact absurd (Nat.div_le_div_right hc :
          _ / 256 ^ w ≤ _ / 256 ^ w) (by omega)
      simp [Nat.compare_eq_gt.mpr hab]

/-- Concatenating behind equal-length byte strings composes comparisons
lexicographically. -/
theorem bytesCompare_append {a b c d : List Nat} (h : a.length = b.length) :
    bytesCompare (a ++ c) (b ++ d) =
      (bytesCompare a b).then (bytesCompare c d) := by
  induction a generalizing b with
  | nil =>
    cases b with
    | nil => simp [bytesCompare, Ordering.then]
    | cons y ys => simp at h
  | cons x xs ih =>
    cases b with
    | nil => simp at h
    | cons y ys =>
      simp only [List.length_cons, Nat.succ_inj] at h
      rcases hxy : compare x y with h1 | h1 | h1 <;>
        simp only [List.cons_append, bytesCompare, hxy, Ordering.then] <;>
          try rfl
      exact ih h

/-! ## Snippet store keys -/

/-- `defaultID = 1`. -/
def defaultID : Int := 1

/-- `defaultName`. -/
def defaultName : String := "Default snippet"

/-- `defaultCode`. -/
def defaultCode : String :=
  "package main\n\nimport \"fmt\"\n\nfunc main() \x7b\n\tfmt.Println(\"Hello, 世界\")\n\x7d\n"

/-- The `uint64(x + math.MaxInt64 + 1)` offset conversion used by the key
encoders: `int64` addition wraps, and the `uint64` conversion is the
residue mod `2 ^ 64`. -/
def offsetU64 (x : Int) : Nat := ((x + maxID + 1) % 2 ^ 64).toNat

theorem offsetU64_eq {x : Int} (h : isInt64 x) : (offsetU64 x : Int) = x + 2 ^ 63 := by
  obtain ⟨h1, h2⟩ := h
  unfold offsetU64 maxID
  have hx : (x + (2 ^ 63 - 1) + 1) % 2 ^ 64 = x + 2 ^ 63 := by omega
  rw [hx]
  omega

theorem offsetU64_lt (x : Int) : offsetU64 x < 2 ^ 64 := by
  unfold offsetU64
  omega

theorem offsetU64_lt_iff {x y : Int} (hx : isInt64 x) (hy : isInt64 y) :
    offsetU64 x < offsetU64 y ↔ x < y := by
  have h1 := offsetU64_eq hx
  have h2 := offsetU64_eq hy
  omega

theorem offsetU64_inj {x y : Int} (hx : isInt64 x) (hy : isInt64 y)
    (h : offsetU64 x = offsetU64 y) : x = y := by
  have h1 := offsetU64_eq hx
  have h2 := offsetU64_eq hy
  omega

/-- `idKey`: 8-byte big-endian key ordering ids as offset `uint64`s. -/
def idKey (id : Int) : List Nat := beBytes 8 (offsetU64 id)

/-- `dualKey`: 20-byte composite key `(modified seconds, modified
nanoseconds, id)`, each component big-endian. -/
def dualKey (id : Int) (mod : GoTime) : List Nat :=
  beBytes 8 (offsetU64 mod.sec) ++ beBytes 4 (mod.nsec % 2 ^ 32) ++
    beBytes 8 (offsetU64 id)

theorem dualKey_length (id : Int) (mod : GoTime) : (dualKey id mod).length = 20 := by
  simp [dualKey, beBytes_length]

/-- The trailing 8 bytes of a `dualKey` (Go `k[12:20]`) are the `idKey`
of the same id. -/
theorem dualKey_drop12 (id : Int) (mod : GoTime) :
    (dualKey id mod).drop 12 = idKey id := by
  have h12 : (beBytes 8 (offsetU64 mod.sec) ++ beBytes 4 (mod.nsec % 2 ^ 32)).length = 12 := by
    rw [List.length_append, beBytes_length, beBytes_length]
  calc (dualKey id mod).drop 12
      = ((beBytes 8 (offsetU64 mod.sec) ++ beBytes 4 (mod.nsec % 2 ^ 32)) ++
          beBytes 8 (offsetU64 id)).drop 12 := by
        unfold dualKey
        rw [List.append_assoc]
    _ = beBytes 8 (offsetU64 id) := List.drop_left' h12

/-- A `GoTime` whose components are representable in `dualKey`. -/
def timeRep (t : GoTime) : Prop := isInt64 t.sec ∧ t.nsec < 2 ^ 32

instance (t : GoTime) : Decidable (timeRep t) := by unfold timeRep; infer_instance

theorem bytesCompare_idKey {a b : Int} (ha : isInt64 a) (hb : isInt64 b) :
    bytesCompare (idKey a) (idKey b) = compare a b := by
  have h256 : (256 : Nat) ^ 8 = 2 ^ 64 := by norm_num
  unfold idKey
  rw [bytesCompare_beBytes 8 (h256 ▸ offsetU64_lt a) (h256 ▸ offsetU64_lt b)]
  rcases lt_trichotomy a b with h | h | h
  · rw [compare_lt_iff_lt.mpr h, Nat.compare_eq_lt.mpr ((offsetU64_lt_iff ha hb).mpr h)]
  · subst h
    have hs : compare a a = Ordering.eq := compare_eq_iff_eq.mpr rfl
    have hn : compare (offsetU64 a) (offsetU64 a) = Ordering.eq := Nat.compare_eq_eq.mpr rfl
    rw [hs, hn]
  · rw [compare_gt_iff_gt.mpr h, Nat.compare_eq_gt.mpr ((offsetU64_lt_iff hb ha).mpr h)]

/-- Strict lexicographic order on `(modified, id)` cursor pairs. -/
def dkLt (t : GoTime) (id : Int) (u : GoTime) (jd : Int) : Prop :=
  t.sec < u.sec ∨ (t.sec = u.sec ∧ (t.nsec < u.nsec ∨ (t.nsec = u.nsec ∧ id < jd)))

instance (t : GoTime) (id : Int) (u : GoTime) (jd : Int) :
    Decidable (dkLt t id u jd) := by unfold dkLt; infer_instance

/-- `dualKey` byte order is the lexicographic `(modified, id)` order for
representable components. -/
theorem bytesCompare_dualKey {a b : Int} {t u : GoTime}
    (ha : isInt64 a) (hb : isInt64 b) (ht : timeRep t) (hu : timeRep u) :
    bytesCompare (dualKey a t) (dualKey b u) =
      (compare t.sec u.sec).then ((compare t.nsec u.nsec).then (compare a b)) := by
  have h256 : (256 : Nat) ^ 8 = 2 ^ 64 := by norm_num
  have h232 : (256 : Nat) ^ 4 = 2 ^ 32 := by norm_num
  have hsec : bytesCompare (beBytes 8 (offsetU64 t.sec)) (beBytes 8 (offsetU64 u.sec)) =
      compare t.sec u.sec := by
    rw [bytesCompare_beBytes 8 (h256 ▸ offsetU64_lt t.sec) (h256 ▸ offsetU64_lt u.sec)]
    rcases lt_trichotomy t.sec u.sec with h | h | h
    · rw [compare_lt_iff_lt.mpr h,
        Nat.compare_eq_lt.mpr ((offsetU64_lt_iff ht.1 hu.1).mpr h)]
    · have hs : compare t.sec u.sec = Ordering.eq := compare_eq_iff_eq.mpr h
      have hn : compare (offsetU64 t.sec) (offsetU64 u.sec) = Ordering.eq := by
        rw [h]
        exact Nat.compare_eq_eq.mpr rfl
      rw [hs, hn]
    · rw [compare_gt_iff_gt.mpr h,
        Nat.compare_eq_gt.mpr ((offsetU64_lt_iff hu.1 ht.1).mpr h)]
  have hns : bytesCompare (beBytes 4 (t.nsec % 2 ^ 32)) (beBytes 4 (u.nsec % 2 ^ 32)) =
      compare t.nsec u.nsec := by
    have hmt : t.nsec % 2 ^ 32 = t.nsec := Nat.mod_eq_of_lt ht.2
    have hmu : u.nsec % 2 ^ 32 = u.nsec := Nat.mod_eq_of_lt hu.2
    rw [hmt, hmu, bytesCompare_beBytes 4 (h232 ▸ ht.2) (h232 ▸ hu.2)]
  have hid : bytesCompare (beBytes 8 (offsetU64 a)) (beBytes 8 (offsetU64 b)) =
      compare a b := bytesCompare_idKey ha hb
  have hlen1 : (beBytes 8 (offsetU64 t.sec)).length =
      (beBytes 8 (offsetU64 u.sec)).length := by rw [beBytes_length, beBytes_length]
  have hlen2 : (beBytes 4 (t.nsec % 2 ^ 32)).length =
      (beBytes 4 (u.nsec % 2 ^ 32)).length := by rw [beBytes_length, beBytes_length]
  unfold dualKey
  rw [List.append_assoc, List.append_assoc]
  rw [bytesCompare_append hlen1, bytesCompare_append hlen2, hsec, hns, hid]

theorem Ordering_then_eq_lt {o p : Ordering} :
    o.then p = .lt ↔ o = .lt ∨ (o = .eq ∧ p = .lt) := by
  cases o <;> simp [Ordering.then]

theorem Ordering_then_eq_eq {o p : Ordering} :
    o.then p = .eq ↔ o = .eq ∧ p = .eq := by
  cases o <;> simp [Ordering.then]

theorem bytesCompare_dualKey_lt_iff {a b : Int} {t u : GoTime}
    (ha : isInt64 a) (hb : isInt64 b) (ht : timeRep t) (hu : timeRep u) :
    bytesCompare (dualKey a t) (dualKey b u) = .lt ↔ dkLt t a u b := by
  rw [bytesCompare_dualKey ha hb ht hu]
  unfold dkLt
  rw [Ordering_then_eq_lt, Ordering_then_eq_lt]
  rw [compare_lt_iff_lt, compare_eq_iff_eq, Nat.compare_eq_lt, Nat.compare_eq_eq,
    compare_lt_iff_lt]

theorem bytesCompare_dualKey_eq_iff {a b : Int} {t u : GoTime}
    (ha : isInt64 a) (hb : isInt64 b) (ht : timeRep t) (hu : timeRep u) :
    bytesCompare (dualKey a t) (dualKey b u) = .eq ↔ t = u ∧ a = b := by
  rw [bytesCompare_dualKey ha hb ht hu]
  rw [Ordering_then_eq_eq, Ordering_then_eq_eq]
  rw [compare_eq_iff_eq, Nat.compare_eq_eq, compare_eq_iff_eq]
  constructor
  · rintro ⟨h1, h2, h3⟩
    refine ⟨?_, h3⟩
    cases t; cases u
    simp_all
  · rintro ⟨h1, h2⟩
    subst h1
    exact ⟨rfl, rfl, h2⟩

/-! ## BoltDB bucket model

A bolt bucket is a byte-key ordered map.  `bktGet`/`bktPut`/`bktDelete`
model `Bucket.Get`/`Put`/`Delete` on the by-id bucket (values are
snippet records, gob round-tripping modelled as the identity);
`datePut`/`dateDelete` model the by-modified bucket whose values are
nil.  States keep the bucket entries sorted ascending by key, as bolt
does. -/

/-- The `snippet` record. -/
structure snippet where
  ID : Int
  Created : GoTime
  Modified : GoTime
  Name : String
  Code : String
  deriving DecidableEq, Repr

def bktGet (k : List Nat) : List (List Nat × snippet) → Option snippet
  | [] => none
  | p :: rest => if bytesCompare k p.1 = .eq then some p.2 else bktGet k rest

def bktPut (k : List Nat) (v : snippet) :
    List (List Nat × snippet) → List (List Nat × snippet)
  | [] => [(k, v)]
  | p :: rest =>
    match bytesCompare k p.1 with
    | .lt => (k, v) :: p :: rest
    | .eq => (k, v) :: rest
    | .gt => p :: bktPut k v rest

def bktDelete (k : List Nat) :
    List (List Nat × snippet) → List (List Nat × snippet)
  | [] => []
  | p :: rest => if bytesCompare k p.1 = .eq then rest else p :: bktDelete k rest

def datePut (k : List Nat) : List (List Nat) → List (List Nat)
  | [] => [k]
  | k2 :: rest =>
    match bytesCompare k k2 with
    | .lt => k :: k2 :: rest
    | .eq => k :: rest
    | .gt => k2 :: datePut k rest

def dateDelete (k : List Nat) : List (List Nat) → List (List Nat)
  | [] => []
  | k2 :: rest => if bytesCompare k k2 = .eq then rest else k2 :: dateDelete k rest

/-- Strict byte-key order. -/
def bLt (a b : List Nat) : Prop := bytesCompare a b = .lt

instance (a b : List Nat) : Decidable (bLt a b) := by unfold bLt; infer_instance

/-! ## The snippet database -/

/-- Store errors: `requestError` wraps bad caller input, `errNotFound`
is the missing-record sentinel. -/
inductive dbError where
  | request (msg : String)
  | notFound
  deriving DecidableEq, Repr

/-- The persistent state of `database`: the two buckets and the
in-memory `lastID` allocation counter.  (The `names` cache only powers
`QueryByName` and is not modelled.) -/
structure database where
  byID : List (List Nat × snippet)
  byDate : List (List Nat)
  lastID : Int
  deriving DecidableEq, Repr

/-- `openDatabase`: scan the by-id bucket in key order, ending with
`lastID` equal to the last record's ID (`-1` on an empty store), and
seed the default snippet when the store is empty.  The bucket contents
are the persisted state handed across close/reopen cycles. -/
def openDatabase (byID : List (List Nat × snippet)) (byDate : List (List Nat)) :
    database :=
  let lastID : Int := byID.foldl (fun _ p => p.2.ID) (-1)
  if lastID = -1 then
    let s : snippet :=
      { ID := defaultID, Created := goZeroTime, Modified := goZeroTime,
        Name := defaultName, Code := defaultCode }
    { byID := bktPut (idKey s.ID) s byID,
      byDate := datePut (dualKey s.ID s.Modified) byDate,
      lastID := s.ID }
  else
    { byID := byID, byDate := byDate, lastID := lastID }

/-- `database.Create`.  `timeNow().UTC().AddDate(0, 0, 0)` is the
instant `now` (UTC conversion and `AddDate(0,0,0)` do not change the
instant).  The new ID is `atomic.AddInt64(&db.lastID, 1)`, wrapping
`int64` addition. -/
def dbCreate (db : database) (s : snippet) (now : GoTime) :
    Except dbError (Int × database) :=
  if s.Name = "" then .error (.request "snippet name cannot be empty")
  else if s.ID ≠ 0 then .error (.request "cannot assign ID when creating snippet")
  else
    let id := wrapInt64 (db.lastID + 1)
    let s2 : snippet := { s with ID := id, Created := now, Modified := now }
    .ok (id, { byID := bktPut (idKey id) s2 db.byID,
               byDate := datePut (dualKey id now) db.byDate,
               lastID := id })

/-- `database.Retrieve`. -/
def dbRetrieve (db : database) (id : Int) : Except dbError snippet :=
  match bktGet (idKey id) db.byID with
  | none => .error .notFound
  | some s => .ok s

/-- `database.Update`. -/
def dbUpdate (db : database) (s : snippet) (id : Int) (now : GoTime) :
    Except dbError database :=
  if s.ID = 0 ∧ id = 0 then
    .error (.request "cannot update snippet with ID: 0")
  else if s.ID > 0 ∧ s.ID ≠ id then
    .error (.request "snippet IDs do not match")
  else if s.ID = defaultID ∧ s.Name ≠ "" ∧ s.Name ≠ defaultName then
    .error (.request "cannot change default snippet name")
  else if ¬s.Modified.isZero ∨ ¬s.Created.isZero then
    .error (.request "cannot set modified or created times")
  else
    match bktGet (idKey id) db.byID with
    | none => .error .notFound
    | some s2 =>
      let s3 : snippet :=
        { s2 with Name := if s.Name ≠ "" then s.Name else s2.Name,
                  Code := if s.Code ≠ "" then s.Code else s2.Code }
      let oldKey := dualKey s3.ID s3.Modified
      let s4 : snippet := { s3 with Modified := now }
      let newKey := dualKey s4.ID s4.Modified
      .ok { byID := bktPut (idKey id) s4 db.byID,
            byDate := datePut newKey (dateDelete oldKey db.byDate),
            lastID := db.lastID }

/-- `database.Delete`. -/
def dbDelete (db : database) (id : Int) : Except dbError database :=
  if id = 0 ∨ id = defaultID then
    .error (.request "cannot delete snippet")
  else
    match bktGet (idKey id) db.byID with
    | none => .error .notFound
    | some s =>
      .ok { byID := bktDelete (idKey id) db.byID,
            byDate := dateDelete (dualKey s.ID s.Modified) db.byDate,
            lastID := db.lastID }

/-! ## Store operation traces -/

/-- One store operation of a trace (`reopen` is a close/reopen cycle;
each mutating operation carries the wall-clock instant `timeNow`
returns during it). -/
inductive dbOp where
  | create (s : snippet) (now : GoTime)
  | update (s : snippet) (id : Int) (now : GoTime)
  | del (id : Int)
  | reopen
  deriving DecidableEq, Repr

/-- Apply one operation; failing operations leave the state unchanged,
and a successful `create` also reports the allocated id. -/
def dbStep (db : database) : dbOp → database × Option Int
  | .create s now =>
    match dbCreate db s now with
    | .ok (id, db2) => (db2, some id)
    | .error _ => (db, none)
  | .update s id now =>
    match dbUpdate db s id now with
    | .ok db2 => (db2, none)
    | .error _ => (db, none)
  | .del id =>
    match dbDelete db id with
    | .ok db2 => (db2, none)
    | .error _ => (db, none)
  | .reopen => (openDatabase db.byID db.byDate, none)

/-- Run a trace, collecting the ids returned by successful `Create`
calls in order. -/
def dbRunAlloc (db : database) : List dbOp → database × List Int
  | [] => (db, [])
  | op :: ops =>
    let (db2, alloc) := dbStep db op
    let (db3, ids) := dbRunAlloc db2 ops
    (db3, (alloc.toList) ++ ids)

/-- The ids currently present in the store. -/
def idsInUse (db : database) : List Int := db.byID.map (fun p => p.2.ID)

/-! ## Basic bucket lemmas -/

theorem bktGet_bktPut_self (k : List Nat) (v : snippet)
    (l : List (List Nat × snippet)) : bktGet k (bktPut k v l) = some v := by
  induction l with
  | nil => simp [bktPut, bktGet, bytesCompare_self]
  | cons p rest ih =>
    rcases h : bytesCompare k p.1 with h1 | h1 | h1 <;>
      simp [bktPut, h, bktGet, bytesCompare_self, ih]

theorem bktGet_mem {k : List Nat} {v : snippet} {l : List (List Nat × snippet)}
    (h : bktGet k l = some v) : (k, v) ∈ l := by
  induction l with
  | nil => simp [bktGet] at h
  | cons p rest ih =>
    rw [List.mem_cons]
    by_cases hk : bytesCompare k p.1 = .eq
    · rw [bktGet, if_pos hk] at h
      have hkp : k = p.1 := bytesCompare_eq_iff.mp hk
      left
      injection h with h2
      rw [hkp, ← h2]
    · rw [bktGet, if_neg hk] at h
      right
      exact ih h

theorem mem_bktPut {p : List Nat × snippet} {k : List Nat} {v : snippet}
    {l : List (List Nat × snippet)} (h : p ∈ bktPut k v l) :
    p = (k, v) ∨ p ∈ l := by
  induction l with
  | nil => simpa [bktPut] using h
  | cons q rest ih =>
    rcases hk : bytesCompare k q.1 with h1 | h1 | h1 <;>
      simp only [bktPut, hk, List.mem_cons] at h <;>
        simp only [List.mem_cons]
    · tauto
    · tauto
    · rcases h with h | h
      · tauto
      · rcases ih h with h2 | h2 <;> tauto

theorem mem_bktDelete {p : List Nat × snippet} {k : List Nat}
    {l : List (List Nat × snippet)} (h : p ∈ bktDelete k l) : p ∈ l := by
  induction l with
  | nil => simpa [bktDelete] using h
  | cons q rest ih =>
    rw [List.mem_cons]
    by_cases hk : bytesCompare k q.1 = .eq
    · rw [bktDelete, if_pos hk] at h
      exact .inr h
    · rw [bktDelete, if_neg hk] at h
      rw [List.mem_cons] at h
      rcases h with h | h
      · exact .inl h
      · exact .inr (ih h)

/-! ## Id allocation (claim C1) -/

/-- A trace with no close/reopen cycle. -/
def reopenFree (ops : List dbOp) : Prop := ∀ op ∈ ops, op ≠ dbOp.reopen

instance (ops : List dbOp) : Decidable (reopenFree ops) := by
  unfold reopenFree; infer_instance

theorem idsInUse_dbStep_create {db db2 : database} {s : snippet} {now : GoTime}
    {oid : Option Int} (h : dbStep db (.create s now) = (db2, oid)) :
    ∀ i ∈ idsInUse db2, i = wrapInt64 (db.lastID + 1) ∨ i ∈ idsInUse db := by
  intro i hi
  rw [dbStep] at h
  by_cases h1 : s.Name = ""
  · rw [dbCreate, if_pos h1] at h
    injection h with h2 h3
    subst h2
    exact .inr hi
  · by_cases h2 : s.ID ≠ 0
    · rw [dbCreate, if_neg h1, if_pos h2] at h
      injection h with h3 h4
      subst h3
      exact .inr hi
    · rw [dbCreate, if_neg h1, if_neg h2] at h
      simp only at h
      injection h with h3 h4
      subst h3
      simp only [idsInUse, List.mem_map] at hi
      obtain ⟨p, hp, hpi⟩ := hi
      rcases mem_bktPut hp with h5 | h5
      · left
        rw [← hpi, h5]
      · right
        exact List.mem_map.mpr ⟨p, h5, hpi⟩

theorem idsInUse_dbStep_update {db db2 : database} {s : snippet} {id : Int}
    {now : GoTime} {oid : Option Int}
    (h : dbStep db (.update s id now) = (db2, oid)) :
    ∀ i ∈ idsInUse db2, i ∈ idsInUse db := by
  intro i hi
  rw [dbStep] at h
  rcases hu : dbUpdate db s id now with db3 | e
  all_goals rw [hu] at h; injection h with h2 h3; subst h2
  case error => exact hi
  case ok =>
    rw [dbUpdate] at hu
    split at hu
    · exact absurd hu (by simp)
    · split at hu
      · exact absurd hu (by simp)
      · split at hu
        · exact absurd hu (by simp)
        · split at hu
          · exact absurd hu (by simp)
          · rcases hg : bktGet (idKey id) db.byID with _ | s2
            · rw [hg] at hu; exact absurd hu (by simp)
            · rw [hg] at hu
              simp only at hu
              injection hu with h4
              subst h4
              simp only [idsInUse, List.mem_map] at hi
              obtain ⟨p, hp, hpi⟩ := hi
              rcases mem_bktPut hp with h5 | h5
              · have hmem : (idKey id, s2) ∈ db.byID := bktGet_mem hg
                refine List.mem_map.mpr ⟨(idKey id, s2), hmem, ?_⟩
                rw [← hpi, h5]
              · exact List.mem_map.mpr ⟨p, h5, hpi⟩

theorem idsInUse_dbStep_del {db db2 : database} {id : Int} {oid : Option Int}
    (h : dbStep db (.del id) = (db2, oid)) :
    ∀ i ∈ idsInUse db2, i ∈ idsInUse db := by
  intro i hi
  rw [dbStep] at h
  rcases hu : dbDelete db id with db3 | e
  all_goals rw [hu] at h; injection h with h2 h3; subst h2
  case error => exact hi
  case ok =>
    rw [dbDelete] at hu
    split at hu
    · exact absurd hu (by simp)
    · rcases hg : bktGet (idKey id) db.byID with _ | s2
      · rw [hg] at hu; exact absurd hu (by simp)
      · rw [hg] at hu
        simp only at hu
        injection hu with h4
        subst h4
        simp only [idsInUse, List.mem_map] at hi
        obtain ⟨p, hp, hpi⟩ := hi
        exact List.mem_map.mpr ⟨p, mem_bktDelete hp, hpi⟩

theorem dbStep_create_cases {db db2 : database} {s : snippet} {now : GoTime}
    {oid : Option Int} (h : dbStep db (.create s now) = (db2, oid)) :
    (db2 = db ∧ oid = none) ∨
      (oid = some (wrapInt64 (db.lastID + 1)) ∧
        db2.lastID = wrapInt64 (db.lastID + 1)) := by
  have hids := idsInUse_dbStep_create h
  rw [dbStep] at h
  by_cases h1 : s.Name = ""
  · rw [dbCreate, if_pos h1] at h
    injection h with h2 h3
    exact .inl ⟨h2.symm, h3.symm⟩
  · by_cases h2 : s.ID ≠ 0
    · rw [dbCreate, if_neg h1, if_pos h2] at h
      injection h with h3 h4
      exact .inl ⟨h3.symm, h4.symm⟩
    · rw [dbCreate, if_neg h1, if_neg h2] at h
      simp only at h
      injection h with h3 h4
      refine .inr ⟨h4.symm, ?_⟩
      rw [← h3]

theorem dbStep_update_state {db db2 : database} {s : snippet} {id : Int}
    {now : GoTime} {oid : Option Int}
    (h : dbStep db (.update s id now) = (db2, oid)) :
    db2.lastID = db.lastID ∧ oid = none := by
  rw [dbStep] at h
  rcases hu : dbUpdate db s id now with db3 | e
  all_goals rw [hu] at h; injection h with h2 h3; subst h2
  case error => exact ⟨rfl, h3.symm⟩
  case ok =>
    refine ⟨?_, h3.symm⟩
    rw [dbUpdate] at hu
    split at hu
    · exact absurd hu (by simp)
    · split at hu
      · exact absurd hu (by simp)
      · split at hu
        · exact absurd hu (by simp)
        · split at hu
          · exact absurd hu (by simp)
          · rcases hg : bktGet (idKey id) db.byID with _ | s2
            · rw [hg] at hu; exact absurd hu (by simp)
            · rw [hg] at hu
              simp only at hu
              injection hu with h4
              rw [← h4]

theorem dbStep_del_state {db db2 : database} {id : Int} {oid : Option Int}
    (h : dbStep db (.del id) = (db2, oid)) :
    db2.lastID = db.lastID ∧ oid = none := by
  rw [dbStep] at h
  rcases hu : dbDelete db id with db3 | e
  all_goals rw [hu] at h; injection h with h2 h3; subst h2
  case error => exact ⟨rfl, h3.symm⟩
  case ok =>
    refine ⟨?_, h3.symm⟩
    rw [dbDelete] at hu
    split at hu
    · exact absurd hu (by simp)
    · rcases hg : bktGet (idKey id) db.byID with _ | s2
      · rw [hg] at hu; exact absurd hu (by simp)
      · rw [hg] at hu
        simp only at hu
        injection hu with h4
        rw [← h4]

/-- In one open session (no reopen), every id returned by a successful
`Create` exceeds the session's running `lastID` watermark, and the
allocated ids are strictly increasing. -/
theorem dbRunAlloc_ids_gt (ops : List dbOp) : ∀ db : database,
    reopenFree ops →
    (∀ i ∈ idsInUse db, i ≤ db.lastID) →
    0 ≤ db.lastID →
    db.lastID + ops.length < 2 ^ 63 →
    List.Pairwise (· < ·) (dbRunAlloc db ops).2 ∧
      ∀ i ∈ (dbRunAlloc db ops).2, db.lastID < i := by
  induction ops with
  | nil =>
    intro db _ _ _ _
    simp [dbRunAlloc]
  | cons op ops ih =>
    intro db hro hin h0 hov
    have hro2 : reopenFree ops := fun o ho => hro o (List.mem_cons_of_mem _ ho)
    rcases hstep : dbStep db op with ⟨db2, oid⟩
    have hrun : (dbRunAlloc db (op :: ops)).2 = oid.toList ++ (dbRunAlloc db2 ops).2 := by
      simp [dbRunAlloc, hstep]
    rw [hrun]
    have hlen : (ops.length : Int) + 1 = ((op :: ops).length : Int) := by
      simp
    cases op with
    | reopen => exact absurd rfl (hro .reopen (List.mem_cons_self _ _))
    | update s id now =>
      obtain ⟨hl, ho⟩ := dbStep_update_state hstep
      have hids := idsInUse_dbStep_update hstep
      have := ih db2 hro2 (fun i hi => hl ▸ hin i (hids i hi)) (hl ▸ h0)
        (by rw [hl]; omega)
      rw [ho]
      simpa [hl] using this
    | del id =>
      obtain ⟨hl, ho⟩ := dbStep_del_state hstep
      have hids := idsInUse_dbStep_del hstep
      have := ih db2 hro2 (fun i hi => hl ▸ hin i (hids i hi)) (hl ▸ h0)
        (by rw [hl]; omega)
      rw [ho]
      simpa [hl] using this
    | create s now =>
      have hids := idsInUse_dbStep_create hstep
      rcases dbStep_create_cases hstep with ⟨hdb, ho⟩ | ⟨ho, hl⟩
      · have hrec := ih db hro2 hin h0 (by omega)
        rw [ho, hdb]
        simpa using hrec
      · have hw : wrapInt64 (db.lastID + 1) = db.lastID + 1 :=
          wrapInt64_eq_self ⟨by omega, by simp at hov; omega⟩
        rw [hw] at ho hl
        have hin2 : ∀ i ∈ idsInUse db2, i ≤ db2.lastID := by
          intro i hi
          rcases hids i hi with h | h
          · rw [hl, h, hw]
          · have := hin i h
            rw [hl]
            omega
        have h02 : 0 ≤ db2.lastID := by rw [hl]; omega
        have hov2 : db2.lastID + ops.length < 2 ^ 63 := by
          rw [hl]
          simp at hov
          omega
        obtain ⟨hp, hgt⟩ := ih db2 hro2 hin2 h02 hov2
        rw [ho]
        constructor
        · refine List.pairwise_cons.mpr ⟨?_, hp⟩
          intro i hi
          have := hgt i hi
          rw [hl] at this
          omega
        · intro i hi
          simp only [Option.toList_some, List.cons_append, List.nil_append,
            List.mem_cons] at hi
          rcases hi with hi | hi
          · omega
          · have := hgt i hi
            rw [hl] at this
            omega

/-- Claim C1 (corrected): within a single open session of the store (no
close/reopen cycle in the trace), every id returned by a successful
`Create` is strictly greater than every id allocated before it and
never equals an id in use, even across `Delete` operations.  (Across a
close/reopen cycle the allocation counter is re-derived as the maximum
id present, so ids of deleted snippets can be reused; see the
counterexample.) -/
theorem createIdsNoReuseInSession (db : database) (ops : List dbOp)
    (hro : reopenFree ops)
    (hin : ∀ i ∈ idsInUse db, i ≤ db.lastID)
    (h0 : 0 ≤ db.lastID)
    (hov : db.lastID + ops.length < 2 ^ 63) :
    List.Pairwise (· < ·) (dbRunAlloc db ops).2 ∧
      ∀ i ∈ (dbRunAlloc db ops).2, i ∉ idsInUse db := by
  obtain ⟨hp, hgt⟩ := dbRunAlloc_ids_gt ops db hro hin h0 hov
  refine ⟨hp, fun i hi hmem => ?_⟩
  have h1 := hgt i hi
  have h2 := hin i hmem
  omega

/-- Concrete trace for the C1 witness: a fresh store, two creates and a
delete in one session. -/
def c1SessionTrace : List dbOp :=
  [dbOp.create ⟨0, goZeroTime, goZeroTime, "a", "x"⟩ ⟨946684800, 0⟩,
   dbOp.del 2,
   dbOp.create ⟨0, goZeroTime, goZeroTime, "b", "y"⟩ ⟨946684801, 0⟩]

theorem createIdsNoReuseInSession_witness :
    reopenFree c1SessionTrace ∧
      (∀ i ∈ idsInUse (openDatabase [] []), i ≤ (openDatabase [] []).lastID) ∧
      0 ≤ (openDatabase [] []).lastID ∧
      (openDatabase [] []).lastID + c1SessionTrace.length < 2 ^ 63 ∧
      (List.Pairwise (· < ·) (dbRunAlloc (openDatabase [] []) c1SessionTrace).2 ∧
        ∀ i ∈ (dbRunAlloc (openDatabase [] []) c1SessionTrace).2,
          i ∉ idsInUse (openDatabase [] [])) :=
  ⟨by decide, by decide, by decide, by decide,
    createIdsNoReuseInSession (openDatabase [] []) c1SessionTrace
      (by decide) (by decide) (by decide) (by decide)⟩

/-- Trace refuting claim C1 as stated: create (id 2), delete id 2,
close/reopen, create again. -/
def c1ReopenTrace : List dbOp :=
  [dbOp.create ⟨0, goZeroTime, goZeroTime, "a", "x"⟩ ⟨946684800, 0⟩,
   dbOp.del 2, dbOp.reopen,
   dbOp.create ⟨0, goZeroTime, goZeroTime, "b", "y"⟩ ⟨946684801, 0⟩]

/-- Claim C1 counterexample: on a fresh store, the trace `create;
delete 2; reopen; create` allocates `[2, 2]` — the second `Create`
returns an id that was already in use before, refuting strict
monotonicity and no-reuse across close/reopen cycles. -/
theorem createIdsReusedAcrossReopen :
    (dbRunAlloc (openDatabase [] []) c1ReopenTrace).2 = [2, 2] ∧
      ¬ List.Pairwise (· < ·) (dbRunAlloc (openDatabase [] []) c1ReopenTrace).2 := by
  constructor
  · rfl
  · decide

/-- Claim C2 (confirmed): a successful `Create(s)` returning `id`
followed by `Retrieve(id)` yields a record whose `Name` and `Code` are
those of `s`, whose `ID` is the returned id, and whose `Created` and
`Modified` are both the store-assigned instant `now`
(`timeNow().UTC().AddDate(0,0,0)`), so `created == modified`. -/
theorem createRetrieveRoundTrip (db : database) (s : snippet) (now : GoTime)
    (id : Int) (db2 : database) (h : dbCreate db s now = .ok (id, db2)) :
    dbRetrieve db2 id =
      .ok { ID := id, Created := now, Modified := now,
            Name := s.Name, Code := s.Code } := by
  rw [dbCreate] at h
  by_cases h1 : s.Name = ""
  · rw [if_pos h1] at h
    exact absurd h (by simp)
  · rw [if_neg h1] at h
    by_cases h2 : s.ID ≠ 0
    · rw [if_pos h2] at h
      exact absurd h (by simp)
    · rw [if_neg h2] at h
      simp only at h
      injection h with h3
      injection h3 with h4 h5
      rw [dbRetrieve, ← h5]
      simp only
      rw [h4, bktGet_bktPut_self]

/-- Store state after the C2 witness `Create`. -/
def c2State : database :=
  { byID := bktPut (idKey 2) ⟨2, ⟨946684800, 0⟩, ⟨946684800, 0⟩, "nm", "cd"⟩
      (openDatabase [] []).byID,
    byDate := datePut (dualKey 2 ⟨946684800, 0⟩) (openDatabase [] []).byDate,
    lastID := 2 }

theorem createRetrieveRoundTrip_witness :
    dbRetrieve c2State 2 =
      .ok ⟨2, ⟨946684800, 0⟩, ⟨946684800, 0⟩, "nm", "cd"⟩ :=
  createRetrieveRoundTrip (openDatabase [] [])
    ⟨0, goZeroTime, goZeroTime, "nm", "cd"⟩ ⟨946684800, 0⟩ 2 c2State (by rfl)

/-- Claim C5 (code bug): `Update` guards the default snippet's name only
when the caller sets `s.ID == defaultID`; with `s.ID == 0` (documented
as optional when `id` is valid) and `id == defaultID`, a different
non-empty name passes every check and the persisted default record is
renamed instead of the call being rejected. -/
theorem updateDefaultNameBypass :
    (dbUpdate (openDatabase [] [])
        ⟨0, goZeroTime, goZeroTime, "other name", ""⟩ defaultID
        ⟨946684800, 0⟩).map (fun d => dbRetrieve d defaultID) =
      .ok (.ok ⟨1, goZeroTime, ⟨946684800, 0⟩, "other name", defaultCode⟩) := by
  rfl

/-! ## Sorted-bucket lemmas (claims C10 and C3) -/

theorem bLt_irrefl (x : List Nat) : ¬ bLt x x := by
  unfold bLt
  rw [bytesCompare_self]
  simp

theorem bLt_trans {x y z : List Nat} (h1 : bLt x y) (h2 : bLt y z) : bLt x z :=
  bytesCompare_lt_trans h1 h2

theorem bLt_cases (x y : List Nat) : bLt x y ∨ x = y ∨ bLt y x := by
  rcases h : bytesCompare x y with h1 | h1 | h1
  · exact .inl h
  · exact .inr (.inl (bytesCompare_eq_iff.mp h))
  · exact .inr (.inr ((bytesCompare_swap y x).mpr h))

theorem idKey_inj {a b : Int} (ha : isInt64 a) (hb : isInt64 b)
    (h : idKey a = idKey b) : a = b := by
  have h2 : bytesCompare (idKey a) (idKey b) = .eq := bytesCompare_eq_iff.mpr h
  rw [bytesCompare_idKey ha hb] at h2
  exact compare_eq_iff_eq.mp h2

theorem dualKey_inj {a b : Int} {t u : GoTime} (ha : isInt64 a) (hb : isInt64 b)
    (ht : timeRep t) (hu : timeRep u) (h : dualKey a t = dualKey b u) :
    t = u ∧ a = b := by
  have h2 : bytesCompare (dualKey a t) (dualKey b u) = .eq := bytesCompare_eq_iff.mpr h
  exact (bytesCompare_dualKey_eq_iff ha hb ht hu).mp h2

/-- Keys of a sorted bucket are strictly increasing, so an entry is the
only one carrying its key. -/
def bktSorted (l : List (List Nat × snippet)) : Prop :=
  List.Pairwise (fun p q => bLt p.1 q.1) l

def dateSorted (l : List (List Nat)) : Prop := List.Pairwise bLt l

instance (l : List (List Nat × snippet)) : Decidable (bktSorted l) := by
  unfold bktSorted; infer_instance

instance (l : List (List Nat)) : Decidable (dateSorted l) := by
  unfold dateSorted; infer_instance

theorem bktSorted_bktPut {l : List (List Nat × snippet)} (k : List Nat)
    (v : snippet) (h : bktSorted l) : bktSorted (bktPut k v l) := by
  induction l with
  | nil => simp [bktPut, bktSorted]
  | cons q rest ih =>
    rw [bktSorted, List.pairwise_cons] at h
    obtain ⟨hq, hrest⟩ := h
    rcases hk : bytesCompare k q.1 with h1 | h1 | h1 <;>
      simp only [bktPut, hk]
    · rw [bktSorted, List.pairwise_cons]
      refine ⟨?_, List.pairwise_cons.mpr ⟨hq, hrest⟩⟩
      intro p hp
      rcases List.mem_cons.mp hp with h2 | h2
      · rw [h2]; exact hk
      · exact bLt_trans hk (hq p h2)
    · rw [bktSorted, List.pairwise_cons]
      have hkq : k = q.1 := bytesCompare_eq_iff.mp hk
      exact ⟨fun p hp => hkq ▸ hq p hp, hrest⟩
    · rw [bktSorted, List.pairwise_cons]
      refine ⟨?_, ih hrest⟩
      intro p hp
      rcases mem_bktPut hp with h2 | h2
      · rw [h2]
        exact (bytesCompare_swap q.1 k).mpr hk
      · exact hq p h2

theorem mem_datePut {x k : List Nat} {l : List (List Nat)}
    (h : x ∈ datePut k l) : x = k ∨ x ∈ l := by
  induction l with
  | nil => simpa [datePut] using h
  | cons q rest ih =>
    rcases hk : bytesCompare k q with h1 | h1 | h1 <;>
      simp only [datePut, hk, List.mem_cons] at h <;>
        simp only [List.mem_cons]
    · tauto
    · tauto
    · rcases h with h | h
      · tauto
      · rcases ih h with h2 | h2 <;> tauto

theorem bktDelete_sublist (k : List Nat) (l : List (List Nat × snippet)) :
    (bktDelete k l).Sublist l := by
  induction l with
  | nil => simp [bktDelete]
  | cons q rest ih =>
    by_cases hk : bytesCompare k q.1 = .eq
    · rw [bktDelete, if_pos hk]
      exact List.sublist_cons_of_sublist q (List.Sublist.refl rest)
    · rw [bktDelete, if_neg hk]
      exact List.Sublist.cons₂ q ih

theorem bktSorted_bktDelete {l : List (List Nat × snippet)} (k : List Nat)
    (h : bktSorted l) : bktSorted (bktDelete k l) :=
  List.Pairwise.sublist (bktDelete_sublist k l) h

theorem dateSorted_datePut {l : List (List Nat)} (k : List Nat)
    (h : dateSorted l) : dateSorted (datePut k l) := by
  induction l with
  | nil => simp [datePut, dateSorted]
  | cons q rest ih =>
    rw [dateSorted, List.pairwise_cons] at h
    obtain ⟨hq, hrest⟩ := h
    rcases hk : bytesCompare k q with h1 | h1 | h1 <;>
      simp only [datePut, hk]
    · rw [dateSorted, List.pairwise_cons]
      refine ⟨?_, List.pairwise_cons.mpr ⟨hq, hrest⟩⟩
      intro p hp
      rcases List.mem_cons.mp hp with h2 | h2
      · rw [h2]; exact hk
      · exact bLt_trans hk (hq p h2)
    · rw [dateSorted, List.pairwise_cons]
      have hkq : k = q := bytesCompare_eq_iff.mp hk
      exact ⟨fun p hp => hkq ▸ hq p hp, hrest⟩
    · rw [dateSorted, List.pairwise_cons]
      refine ⟨?_, ih hrest⟩
      intro p hp
      rcases mem_datePut hp with h2 | h2
      · rw [h2]
        exact (bytesCompare_swap q k).mpr hk
      · exact hq p h2

theorem dateDelete_sublist (k : List Nat) (l : List (List Nat)) :
    (dateDelete k l).Sublist l := by
  induction l with
  | nil => simp [dateDelete]
  | cons q rest ih =>
    by_cases hk : bytesCompare k q = .eq
    · rw [dateDelete, if_pos hk]
      exact List.sublist_cons_of_sublist q (List.Sublist.refl rest)
    · rw [dateDelete, if_neg hk]
      exact List.Sublist.cons₂ q ih

theorem dateSorted_dateDelete {l : List (List Nat)} (k : List Nat)
    (h : dateSorted l) : dateSorted (dateDelete k l) :=
  List.Pairwise.sublist (dateDelete_sublist k l) h

theorem mem_bktPut_iff {p : List Nat × snippet} {k : List Nat} {v : snippet}
    {l : List (List Nat × snippet)} (hs : bktSorted l) :
    p ∈ bktPut k v l ↔ p = (k, v) ∨ (p ∈ l ∧ p.1 ≠ k) := by
  induction l with
  | nil => simp [bktPut]
  | cons q rest ih =>
    rw [bktSorted, List.pairwise_cons] at hs
    obtain ⟨hq, hrest⟩ := hs
    have hne : ∀ r, r ∈ rest → r.1 ≠ k → r ∈ (q :: rest) ∧ r.1 ≠ k :=
      fun r h1 h2 => ⟨List.mem_cons_of_mem q h1, h2⟩
    rcases hk : bytesCompare k q.1 with h1 | h1 | h1 <;>
      simp only [bktPut, hk, List.mem_cons]
    · constructor
      · rintro (h | h | h)
        · exact .inl h
        · refine .inr ⟨.inl h, ?_⟩
          intro hc
          rw [h] at hc
          rw [hc] at hk
          exact absurd (bytesCompare_self k) (by rw [hk]; simp)
        · refine .inr ⟨.inr h, ?_⟩
          intro hc
          have := bLt_trans (hk : bLt k q.1) (hq p h)
          rw [hc] at this
          exact bLt_irrefl k this
      · rintro (h | ⟨h | h, h2⟩)
        · exact .inl h
        · exact .inr (.inl h)
        · exact .inr (.inr h)
    · have hkq : k = q.1 := bytesCompare_eq_iff.mp hk
      constructor
      · rintro (h | h)
        · exact .inl h
        · refine .inr ⟨.inr h, ?_⟩
          intro hc
          have := hq p h
          rw [hc, hkq] at this
          exact bLt_irrefl q.1 this
      · rintro (h | ⟨h | h, h2⟩)
        · exact .inl h
        · rw [h, hkq] at h2
          exact absurd rfl h2
        · exact .inr h
    · have hqk : bLt q.1 k := (bytesCompare_swap q.1 k).mpr hk
      constructor
      · rintro (h | h)
        · refine .inr ⟨.inl h, ?_⟩
          intro hc
          rw [h] at hc
          rw [hc] at hqk
          exact bLt_irrefl k hqk
        · rcases (ih hrest).mp h with h2 | ⟨h2, h3⟩
          · exact .inl h2
          · exact .inr ⟨.inr h2, h3⟩
      · rintro (h | ⟨h | h, h2⟩)
        · exact .inr ((ih hrest).mpr (.inl h))
        · exact .inl h
        · exact .inr ((ih hrest).mpr (.inr ⟨h, h2⟩))

theorem mem_bktDelete_iff {p : List Nat × snippet} {k : List Nat}
    {l : List (List Nat × snippet)} (hs : bktSorted l) :
    p ∈ bktDelete k l ↔ p ∈ l ∧ p.1 ≠ k := by
  induction l with
  | nil => simp [bktDelete]
  | cons q rest ih =>
    rw [bktSorted, List.pairwise_cons] at hs
    obtain ⟨hq, hrest⟩ := hs
    by_cases hk : bytesCompare k q.1 = .eq
    · have hkq : k = q.1 := bytesCompare_eq_iff.mp hk
      rw [bktDelete, if_pos hk]
      simp only [List.mem_cons]
      constructor
      · intro h
        refine ⟨.inr h, ?_⟩
        intro hc
        have := hq p h
        rw [hc, hkq] at this
        exact bLt_irrefl q.1 this
      · rintro ⟨h | h, h2⟩
        · rw [h, hkq] at h2
          exact absurd rfl h2
        · exact h
    · rw [bktDelete, if_neg hk]
      simp only [List.mem_cons]
      constructor
      · rintro (h | h)
        · refine ⟨.inl h, ?_⟩
          intro hc
          apply hk
          rw [← hc, h]
          exact bytesCompare_self q.1
        · obtain ⟨h2, h3⟩ := (ih hrest).mp h
          exact ⟨.inr h2, h3⟩
      · rintro ⟨h | h, h2⟩
        · exact .inl h
        · exact .inr ((ih hrest).mpr ⟨h, h2⟩)

theorem datePut_mem_self (k : List Nat) (l : List (List Nat)) :
    k ∈ datePut k l := by
  induction l with
  | nil => simp [datePut]
  | cons q rest ih =>
    rcases hk : bytesCompare k q with h1 | h1 | h1 <;>
      simp only [datePut, hk, List.mem_cons]
    · simp
    · simp
    · exact .inr ih

theorem mem_datePut_of_mem {x : List Nat} (k : List Nat)
    {l : List (List Nat)} (h : x ∈ l) : x ∈ datePut k l := by
  induction l with
  | nil => simp at h
  | cons q rest ih =>
    rcases List.mem_cons.mp h with h2 | h2 <;>
      rcases hk : bytesCompare k q with h1 | h1 | h1 <;>
        simp only [datePut, hk, List.mem_cons]
    · exact .inr (.inl h2)
    · have : k = q := bytesCompare_eq_iff.mp hk
      rw [h2, ← this]
      exact .inl rfl
    · exact .inl h2
    · exact .inr (.inr h2)
    · exact .inr h2
    · exact .inr (ih h2)

theorem mem_dateDelete_iff {x k : List Nat} {l : List (List Nat)}
    (hs : dateSorted l) : x ∈ dateDelete k l ↔ x ∈ l ∧ x ≠ k := by
  induction l with
  | nil => simp [dateDelete]
  | cons q rest ih =>
    rw [dateSorted, List.pairwise_cons] at hs
    obtain ⟨hq, hrest⟩ := hs
    by_cases hk : bytesCompare k q = .eq
    · have hkq : k = q := bytesCompare_eq_iff.mp hk
      rw [dateDelete, if_pos hk]
      simp only [List.mem_cons]
      constructor
      · intro h
        refine ⟨.inr h, ?_⟩
        intro hc
        have := hq x h
        rw [hc, hkq] at this
        exact bLt_irrefl q this
      · rintro ⟨h | h, h2⟩
        · rw [h, hkq] at h2
          exact absurd rfl h2
        · exact h
    · rw [dateDelete, if_neg hk]
      simp only [List.mem_cons]
      constructor
      · rintro (h | h)
        · refine ⟨.inl h, ?_⟩
          intro hc
          apply hk
          rw [← hc, h]
          exact bytesCompare_self q
        · obtain ⟨h2, h3⟩ := (ih hrest).mp h
          exact ⟨.inr h2, h3⟩
      · rintro ⟨h | h, h2⟩
        · exact .inl h
        · exact .inr ((ih hrest).mpr ⟨h, h2⟩)

/-- Under sortedness an entry's key determines its value. -/
theorem bktSorted_key_unique {k : List Nat} {v w : snippet}
    {l : List (List Nat × snippet)} (hs : bktSorted l)
    (hv : (k, v) ∈ l) (hw : (k, w) ∈ l) : v = w := by
  induction l with
  | nil => simp at hv
  | cons q rest ih =>
    rw [bktSorted, List.pairwise_cons] at hs
    obtain ⟨hq, hrest⟩ := hs
    rcases List.mem_cons.mp hv with h1 | h1 <;>
      rcases List.mem_cons.mp hw with h2 | h2
    · rw [← h1] at h2
      injection h2 with h3 h4
      exact h4.symm
    · exfalso
      have := hq _ h2
      rw [← h1] at this
      exact bLt_irrefl k this
    · exfalso
      have := hq _ h1
      rw [← h2] at this
      exact bLt_irrefl k this
    · exact ih hrest h1 h2

/-! ## Dual-index consistency (claim C10) -/

/-- The by-modified bucket holds exactly the composite keys of the
records in the by-id bucket: every key comes from a record, and every
record's key is present.  Together with `dateSorted` (which forbids
duplicate keys) this says the by-date index has exactly one key per
record and no others. -/
def dualConsistent (db : database) : Prop :=
  (∀ k ∈ db.byDate, ∃ p ∈ db.byID, k = dualKey p.2.ID p.2.Modified) ∧
  (∀ p ∈ db.byID, dualKey p.2.ID p.2.Modified ∈ db.byDate)

instance (db : database) : Decidable (dualConsistent db) := by
  unfold dualConsistent; infer_instance

/-- Well-formedness of a store state: both buckets sorted, by-id keys
encode the record ids, ids positive and bounded by the allocation
counter, modified instants representable, and the two indexes
consistent. -/
def dbWf (db : database) : Prop :=
  bktSorted db.byID ∧ dateSorted db.byDate ∧
  (∀ p ∈ db.byID, p.1 = idKey p.2.ID) ∧
  (∀ p ∈ db.byID, 1 ≤ p.2.ID ∧ p.2.ID ≤ db.lastID ∧ timeRep p.2.Modified) ∧
  1 ≤ db.lastID ∧ db.lastID < 2 ^ 63 ∧
  dualConsistent db

instance (db : database) : Decidable (dbWf db) := by
  unfold dbWf; infer_instance

theorem dbCreate_ok_inv {db db2 : database} {s : snippet} {now : GoTime}
    {id : Int} (hc : dbCreate db s now = .ok (id, db2)) :
    id = wrapInt64 (db.lastID + 1) ∧
      db2 = { byID := bktPut (idKey id)
                { s with ID := id, Created := now, Modified := now } db.byID,
              byDate := datePut (dualKey id now) db.byDate,
              lastID := id } := by
  rw [dbCreate] at hc
  by_cases h1 : s.Name = ""
  · rw [if_pos h1] at hc
    exact absurd hc (by simp)
  · rw [if_neg h1] at hc
    by_cases h2 : s.ID ≠ 0
    · rw [if_pos h2] at hc
      exact absurd hc (by simp)
    · rw [if_neg h2] at hc
      simp only at hc
      injection hc with h3
      injection h3 with h4 h5
      refine ⟨h4.symm, ?_⟩
      rw [← h5, h4]

theorem dbWf_create {db db2 : database} {s : snippet} {now : GoTime} {id : Int}
    (h : dbWf db) (hn : timeRep now) (hov : db.lastID + 1 < 2 ^ 63)
    (hc : dbCreate db s now = .ok (id, db2)) : dbWf db2 := by
  obtain ⟨hsID, hsD, hkm, hir, hl1, hl2, hcons1, hcons2⟩ := h
  obtain ⟨hid, hdb2⟩ := dbCreate_ok_inv hc
  have hidv : id = db.lastID + 1 := by
    rw [hid]
    exact wrapInt64_eq_self ⟨by omega, by omega⟩
  have hidr : isInt64 id := ⟨by omega, by omega⟩
  have holdr : ∀ p ∈ db.byID, isInt64 p.2.ID := by
    intro p hp
    obtain ⟨ha, hb, _⟩ := hir p hp
    exact ⟨by omega, by omega⟩
  have hfresh : ∀ p ∈ db.byID, p.1 ≠ idKey id := by
    intro p hp hcn
    have hk := hkm p hp
    rw [hk] at hcn
    have := idKey_inj (holdr p hp) hidr hcn
    obtain ⟨_, hb, _⟩ := hir p hp
    omega
  subst hdb2
  refine ⟨bktSorted_bktPut _ _ hsID, dateSorted_datePut _ hsD, ?_, ?_, ?_, ?_, ?_, ?_⟩
  · intro p hp
    rcases (mem_bktPut_iff hsID).mp hp with h2 | ⟨h2, _⟩
    · rw [h2]
    · exact hkm p h2
  · intro p hp
    rcases (mem_bktPut_iff hsID).mp hp with h2 | ⟨h2, _⟩
    · rw [h2]
      show 1 ≤ id ∧ id ≤ id ∧ timeRep now
      exact ⟨by omega, le_refl id, hn⟩
    · obtain ⟨ha, hb, hcr⟩ := hir p h2
      refine ⟨ha, ?_, hcr⟩
      show p.2.ID ≤ id
      omega
  · show 1 ≤ id
    omega
  · show id < 2 ^ 63
    omega
  · intro k hk
    rcases mem_datePut hk with h2 | h2
    · refine ⟨(idKey id, { s with ID := id, Created := now, Modified := now }),
        (mem_bktPut_iff hsID).mpr (.inl rfl), ?_⟩
      rw [h2]
    · obtain ⟨p, hp, hpk⟩ := hcons1 k h2
      exact ⟨p, (mem_bktPut_iff hsID).mpr (.inr ⟨hp, hfresh p hp⟩), hpk⟩
  · intro p hp
    rcases (mem_bktPut_iff hsID).mp hp with h2 | ⟨h2, _⟩
    · rw [h2]
      exact datePut_mem_self _ _
    · exact mem_datePut_of_mem _ (hcons2 p h2)

theorem dbUpdate_ok_inv {db db2 : database} {s : snippet} {id : Int}
    {now : GoTime} (hc : dbUpdate db s id now = .ok db2) :
    ∃ s2, bktGet (idKey id) db.byID = some s2 ∧
      db2 = { byID := bktPut (idKey id)
                { ID := s2.ID, Created := s2.Created, Modified := now,
                  Name := if s.Name ≠ "" then s.Name else s2.Name,
                  Code := if s.Code ≠ "" then s.Code else s2.Code } db.byID,
              byDate := datePut (dualKey s2.ID now)
                (dateDelete (dualKey s2.ID s2.Modified) db.byDate),
              lastID := db.lastID } := by
  rw [dbUpdate] at hc
  split at hc
  · exact absurd hc (by simp)
  · split at hc
    · exact absurd hc (by simp)
    · split at hc
      · exact absurd hc (by simp)
      · split at hc
        · exact absurd hc (by simp)
        · rcases hg : bktGet (idKey id) db.byID with _ | s2
          · rw [hg] at hc
            exact absurd hc (by simp)
          · rw [hg] at hc
            simp only at hc
            injection hc with h4
            exact ⟨s2, rfl, h4.symm⟩

theorem dbWf_update {db db2 : database} {s : snippet} {id : Int} {now : GoTime}
    (h : dbWf db) (hn : timeRep now) (hid : isInt64 id)
    (hc : dbUpdate db s id now = .ok db2) : dbWf db2 := by
  obtain ⟨hsID, hsD, hkm, hir, hl1, hl2, hcons1, hcons2⟩ := h
  obtain ⟨s2, hg, hdb2⟩ := dbUpdate_ok_inv hc
  have hmem : (idKey id, s2) ∈ db.byID := bktGet_mem hg
  have holdr : ∀ p ∈ db.byID, isInt64 p.2.ID := by
    intro p hp
    obtain ⟨ha, hb, _⟩ := hir p hp
    exact ⟨by omega, by omega⟩
  have hs2id : s2.ID = id := by
    have hk := hkm _ hmem
    simp only at hk
    have h2 := idKey_inj (holdr _ hmem) hid hk.symm
    simp only at h2
    omega
  have hs2r := hir _ hmem
  simp only at hs2r
  set s4 : snippet :=
    { ID := s2.ID, Created := s2.Created, Modified := now,
      Name := if s.Name ≠ "" then s.Name else s2.Name,
      Code := if s.Code ≠ "" then s.Code else s2.Code } with hs4
  have hkeyeq : ∀ p ∈ db.byID, p.1 = idKey id → p = (idKey id, s2) := by
    intro p hp hk
    have hp2 : p = (p.1, p.2) := rfl
    rw [hp2, hk] at hp ⊢
    have := bktSorted_key_unique hsID hp hmem
    rw [this]
  subst hdb2
  refine ⟨bktSorted_bktPut _ _ hsID,
    dateSorted_datePut _ (dateSorted_dateDelete _ hsD), ?_, ?_, ?_, ?_, ?_, ?_⟩
  · intro p hp
    rcases (mem_bktPut_iff hsID).mp hp with h2 | ⟨h2, _⟩
    · rw [h2]
      show idKey id = idKey s4.ID
      rw [hs4]
      simp only
      rw [hs2id]
    · exact hkm p h2
  · intro p hp
    rcases (mem_bktPut_iff hsID).mp hp with h2 | ⟨h2, _⟩
    · rw [h2]
      show 1 ≤ s4.ID ∧ s4.ID ≤ db.lastID ∧ timeRep s4.Modified
      rw [hs4]
      exact ⟨hs2r.1, hs2r.2.1, hn⟩
    · obtain ⟨ha, hb, hcr⟩ := hir p h2
      exact ⟨ha, hb, hcr⟩
  · exact hl1
  · exact hl2
  · intro k hk
    rcases mem_datePut hk with h2 | h2
    · refine ⟨(idKey id, s4), (mem_bktPut_iff hsID).mpr (.inl rfl), ?_⟩
      rw [h2, hs4]
    · obtain ⟨h3, h4⟩ := (mem_dateDelete_iff hsD).mp h2
      obtain ⟨p, hp, hpk⟩ := hcons1 k h3
      have hne : p.1 ≠ idKey id := by
        intro hcn
        have := hkeyeq p hp hcn
        rw [this] at hpk
        simp only at hpk
        exact h4 hpk
      exact ⟨p, (mem_bktPut_iff hsID).mpr (.inr ⟨hp, hne⟩), hpk⟩
  · intro p hp
    rcases (mem_bktPut_iff hsID).mp hp with h2 | ⟨h2, hne⟩
    · rw [h2]
      show dualKey s4.ID s4.Modified ∈ _
      rw [hs4]
      simp only
      exact datePut_mem_self _ _
    · apply mem_datePut_of_mem
      rw [mem_dateDelete_iff hsD]
      refine ⟨hcons2 p h2, ?_⟩
      intro hcn
      obtain ⟨ha, hb, hcr⟩ := hir p h2
      have := dualKey_inj (holdr p h2) ⟨by omega, by omega⟩ hcr hs2r.2.2 hcn
      apply hne
      rw [hkm p h2, this.2, hs2id]

theorem dbDelete_ok_inv {db db2 : database} {id : Int}
    (hc : dbDelete db id = .ok db2) :
    ∃ s2, bktGet (idKey id) db.byID = some s2 ∧
      db2 = { byID := bktDelete (idKey id) db.byID,
              byDate := dateDelete (dualKey s2.ID s2.Modified) db.byDate,
              lastID := db.lastID } := by
  rw [dbDelete] at hc
  split at hc
  · exact absurd hc (by simp)
  · rcases hg : bktGet (idKey id) db.byID with _ | s2
    · rw [hg] at hc
      exact absurd hc (by simp)
    · rw [hg] at hc
      simp only at hc
      injection hc with h4
      exact ⟨s2, rfl, h4.symm⟩

theorem dbWf_delete {db db2 : database} {id : Int}
    (h : dbWf db) (hid : isInt64 id) (hc : dbDelete db id = .ok db2) :
    dbWf db2 := by
  obtain ⟨hsID, hsD, hkm, hir, hl1, hl2, hcons1, hcons2⟩ := h
  obtain ⟨s2, hg, hdb2⟩ := dbDelete_ok_inv hc
  have hmem : (idKey id, s2) ∈ db.byID := bktGet_mem hg
  have holdr : ∀ p ∈ db.byID, isInt64 p.2.ID := by
    intro p hp
    obtain ⟨ha, hb, _⟩ := hir p hp
    exact ⟨by omega, by omega⟩
  have hs2id : s2.ID = id := by
    have hk := hkm _ hmem
    simp only at hk
    have h2 := idKey_inj (holdr _ hmem) hid hk.symm
    simp only at h2
    omega
  have hs2r := hir _ hmem
  simp only at hs2r
  have hkeyeq : ∀ p ∈ db.byID, p.1 = idKey id → p = (idKey id, s2) := by
    intro p hp hk
    have hp2 : p = (p.1, p.2) := rfl
    rw [hp2, hk] at hp ⊢
    have := bktSorted_key_unique hsID hp hmem
    rw [this]
  subst hdb2
  refine ⟨bktSorted_bktDelete _ hsID, dateSorted_dateDelete _ hsD,
    ?_, ?_, ?_, ?_, ?_, ?_⟩
  · intro p hp
    exact hkm p ((mem_bktDelete_iff hsID).mp hp).1
  · intro p hp
    exact hir p ((mem_bktDelete_iff hsID).mp hp).1
  · exact hl1
  · exact hl2
  · intro k hk
    obtain ⟨h3, h4⟩ := (mem_dateDelete_iff hsD).mp hk
    obtain ⟨p, hp, hpk⟩ := hcons1 k h3
    have hne : p.1 ≠ idKey id := by
      intro hcn
      have := hkeyeq p hp hcn
      rw [this] at hpk
      simp only at hpk
      exact h4 hpk
    exact ⟨p, (mem_bktDelete_iff hsID).mpr ⟨hp, hne⟩, hpk⟩
  · intro p hp
    obtain ⟨h2, hne⟩ := (mem_bktDelete_iff hsID).mp hp
    rw [mem_dateDelete_iff hsD]
    refine ⟨hcons2 p h2, ?_⟩
    intro hcn
    obtain ⟨ha, hb, hcr⟩ := hir p h2
    have := dualKey_inj (holdr p h2) ⟨by omega, by omega⟩ hcr hs2r.2.2 hcn
    apply hne
    rw [hkm p h2, this.2, hs2id]

/-- Claim C10 (confirmed): after seeding a fresh store at open, and
after every successful `Create`, `Update`, or `Delete` on a
well-formed store, the by-modified bucket contains exactly one
composite key `dualKey(id, modified)` for each record of the by-id
bucket and no others (`dbWf` includes `dualConsistent` together with
the sortedness that forbids duplicates); each operation maintains both
indexes in its single transaction. -/
theorem dualIndexConsistency :
    dbWf (openDatabase [] []) ∧
      (∀ (db db2 : database) (s : snippet) (now : GoTime) (id : Int),
        dbWf db → timeRep now → db.lastID + 1 < 2 ^ 63 →
        dbCreate db s now = .ok (id, db2) → dbWf db2) ∧
      (∀ (db db2 : database) (s : snippet) (id : Int) (now : GoTime),
        dbWf db → timeRep now → isInt64 id →
        dbUpdate db s id now = .ok db2 → dbWf db2) ∧
      (∀ (db db2 : database) (id : Int),
        dbWf db → isInt64 id → dbDelete db id = .ok db2 → dbWf db2) :=
  ⟨by decide,
   fun _ _ _ _ _ h hn hov hc => dbWf_create h hn hov hc,
   fun _ _ _ _ _ h hn hid hc => dbWf_update h hn hid hc,
   fun _ _ _ h hid hc => dbWf_delete h hid hc⟩

/-- Store state after the C10 witness `Create`. -/
def c10State : database :=
  { byID := bktPut (idKey 2) ⟨2, ⟨946684800, 0⟩, ⟨946684800, 0⟩, "n10", "c10"⟩
      (openDatabase [] []).byID,
    byDate := datePut (dualKey 2 ⟨946684800, 0⟩) (openDatabase [] []).byDate,
    lastID := 2 }

theorem dualIndexConsistency_witness :
    dbWf (openDatabase [] []) ∧ timeRep ⟨946684800, 0⟩ ∧
      (openDatabase [] []).lastID + 1 < 2 ^ 63 ∧ dbWf c10State :=
  ⟨dualIndexConsistency.1, by decide, by decide,
   dualIndexConsistency.2.1 (openDatabase [] []) c10State
     ⟨0, goZeroTime, goZeroTime, "n10", "c10"⟩ ⟨946684800, 0⟩ 2
     dualIndexConsistency.1 (by decide) (by decide) (by rfl)⟩

/-! ## QueryByModified (claim C3)

The by-modified bucket is iterated through a bolt cursor: `Seek`
positions at the first key at or after the search key, `Last` at the
final key, `Prev` steps backwards.  Positions are indexes into the
ascending key list. -/

/-- Cursor `Seek`: index of the first key at or after `sk`. -/
def cSeek (l : List (List Nat)) (sk : List Nat) : Option Nat :=
  match l with
  | [] => none
  | k :: rest => if ¬ bLt k sk then some 0 else (cSeek rest sk).map (· + 1)

/-- Cursor `Last`: index of the final key. -/
def cLast (l : List (List Nat)) : Option Nat :=
  if l.isEmpty then none else some (l.length - 1)

/-- One iteration body of the `QueryByModified` loop at key `k`: keys
at or after the search key are skipped (`continue`), others are looked
up in the by-id bucket through their trailing id bytes (`k[12:20]`)
and appended.  A missing by-id record makes `UnmarshalBinary` fail,
modelled as `none`. -/
def qbmVisit (byID : List (List Nat × snippet)) (sk k : List Nat)
    (ss : List snippet) : Option (List snippet) :=
  if ¬ bLt k sk then some ss
  else
    match bktGet (k.drop 12) byID with
    | none => none
    | some s => some (ss ++ [s])

/-- The cursor iteration of `QueryByModified`: starting at position
`i`, check the limit, visit the key, and step to `Prev` until the
cursor is exhausted. -/
def qbmLoop (byID : List (List Nat × snippet)) (byDate : List (List Nat))
    (sk : List Nat) (limit : Int) : Nat → List snippet → Option (List snippet)
  | 0, ss =>
    if limit ≤ ss.length ∧ 0 ≤ limit then some ss
    else
      match byDate.get? 0 with
      | none => some ss
      | some k => qbmVisit byID sk k ss
  | j + 1, ss =>
    if limit ≤ ss.length ∧ 0 ≤ limit then some ss
    else
      match byDate.get? (j + 1) with
      | none => some ss
      | some k =>
        match qbmVisit byID sk k ss with
        | none => none
        | some ss2 => qbmLoop byID byDate sk limit j ss2

/-- `database.QueryByModified`. -/
def QueryByModified (db : database) (lastTime : GoTime) (lastID : Int)
    (limit : Int) : Option (List snippet) :=
  let c : GoTime × Int :=
    if lastTime.isZero ∧ lastID = 0 then (maxTime, maxID) else (lastTime, lastID)
  let sk := dualKey c.2 c.1
  let start :=
    match cSeek db.byDate sk with
    | some i => some i
    | none => cLast db.byDate
  match start with
  | none => some []
  | some i => qbmLoop db.byID db.byDate sk limit i []

/-- The effective cursor: a zero cursor means `(maxTime, maxID)`. -/
def effCursor (t : GoTime) (id : Int) : GoTime × Int :=
  if t.isZero ∧ id = 0 then (maxTime, maxID) else (t, id)

/-- The records currently stored (values of the by-id bucket). -/
def records (db : database) : List snippet := db.byID.map (fun p => p.2)

/-- `a` precedes `b` in descending `(modified, id)` order. -/
def snipDescLt (a b : snippet) : Prop := dkLt b.Modified b.ID a.Modified a.ID

instance (a b : snippet) : Decidable (snipDescLt a b) := by
  unfold snipDescLt; infer_instance

/-- Insert into a descending-ordered list. -/
def insertDesc (s : snippet) : List snippet → List snippet
  | [] => [s]
  | r :: rest =>
    if snipDescLt s r then s :: r :: rest else r :: insertDesc s rest

/-- Sort records into descending `(modified, id)` order. -/
def sortDesc (l : List snippet) : List snippet := l.foldr insertDesc []

/-- Apply a Go `limit`: non-negative limits truncate, negative limits
mean no bound. -/
def truncLimit (limit : Int) (l : List snippet) : List snippet :=
  if 0 ≤ limit then l.take limit.toNat else l

/-- Specification of `QueryByModified`, from the spec's words: the
records whose `(modified, id)` is strictly less than the cursor, in
descending `(modified, id)` order, truncated to `limit` when `limit`
is non-negative. -/
def qbmSpec (db : database) (t : GoTime) (id : Int) (limit : Int) :
    List snippet :=
  truncLimit limit
    (sortDesc ((records db).filter (fun s => decide (dkLt s.Modified s.ID t id))))

instance : Inhabited snippet := ⟨⟨0, goZeroTime, goZeroTime, "", ""⟩⟩

theorem dkLt_trans {t1 t2 t3 : GoTime} {i1 i2 i3 : Int}
    (h1 : dkLt t1 i1 t2 i2) (h2 : dkLt t2 i2 t3 i3) : dkLt t1 i1 t3 i3 := by
  unfold dkLt at h1 h2 ⊢
  omega

theorem dkLt_irrefl (t : GoTime) (i : Int) : ¬ dkLt t i t i := by
  unfold dkLt
  omega

theorem dkLt_cases (t u : GoTime) (i j : Int) :
    dkLt t i u j ∨ (t.sec = u.sec ∧ t.nsec = u.nsec ∧ i = j) ∨ dkLt u j t i := by
  unfold dkLt
  omega

theorem dkLt_asymm {t u : GoTime} {i j : Int}
    (h1 : dkLt t i u j) (h2 : dkLt u j t i) : False := by
  unfold dkLt at h1 h2
  omega

theorem snipDescLt_trans {a b c : snippet}
    (h1 : snipDescLt a b) (h2 : snipDescLt b c) : snipDescLt a c :=
  dkLt_trans h2 h1

theorem snipDescLt_irrefl (a : snippet) : ¬ snipDescLt a a :=
  dkLt_irrefl _ _

theorem bktGet_of_mem {k : List Nat} {v : snippet}
    {l : List (List Nat × snippet)} (hs : bktSorted l) (h : (k, v) ∈ l) :
    bktGet k l = some v := by
  induction l with
  | nil => simp at h
  | cons q rest ih =>
    rw [bktSorted, List.pairwise_cons] at hs
    obtain ⟨hq, hrest⟩ := hs
    rcases List.mem_cons.mp h with h1 | h1
    · rw [bktGet, if_pos]
      · rw [← h1]
      · rw [← h1]
        exact bytesCompare_self k
    · rw [bktGet, if_neg]
      · exact ih hrest h1
      · intro hc
        have hkq : k = q.1 := bytesCompare_eq_iff.mp hc
        have := hq _ h1
        simp only at this
        rw [← hkq] at this
        exact bLt_irrefl k this

/-- Two lists sorted under an irreflexive transitive relation with the
same members are equal. -/
theorem sorted_eq_of_mem_iff {α : Type} {r : α → α → Prop}
    (htr : ∀ {a b c : α}, r a b → r b c → r a c)
    (hirr : ∀ a : α, ¬ r a a) :
    ∀ (l1 l2 : List α), l1.Pairwise r → l2.Pairwise r →
      (∀ x, x ∈ l1 ↔ x ∈ l2) → l1 = l2 := by
  intro l1
  induction l1 with
  | nil =>
    intro l2 _ _ hmem
    cases l2 with
    | nil => rfl
    | cons b t2 => exact absurd ((hmem b).mpr (List.mem_cons_self b t2)) (by simp)
  | cons a t1 ih =>
    intro l2 h1 h2 hmem
    cases l2 with
    | nil => exact absurd ((hmem a).mp (List.mem_cons_self a t1)) (by simp)
    | cons b t2 =>
      rw [List.pairwise_cons] at h1 h2
      obtain ⟨ha1, ht1⟩ := h1
      obtain ⟨hb2, ht2⟩ := h2
      have hab : a = b := by
        rcases List.mem_cons.mp ((hmem a).mp (List.mem_cons_self a t1)) with h | h
        · exact h
        · rcases List.mem_cons.mp ((hmem b).mpr (List.mem_cons_self b t2)) with h3 | h3
          · exact h3.symm
          · exact absurd (htr (hb2 a h) (ha1 b h3)) (hirr b)
      subst hab
      have hmem2 : ∀ x, x ∈ t1 ↔ x ∈ t2 := by
        intro x
        constructor
        · intro hx
          rcases List.mem_cons.mp ((hmem x).mp (List.mem_cons_of_mem a hx)) with h | h
          · rw [h] at hx
            exact absurd (ha1 a hx) (hirr a)
          · exact h
        · intro hx
          rcases List.mem_cons.mp ((hmem x).mpr (List.mem_cons_of_mem a hx)) with h | h
          · rw [h] at hx
            exact absurd (hb2 a hx) (hirr a)
          · exact h
      rw [ih t2 ht1 ht2 hmem2]

theorem mem_insertDesc {x s : snippet} {l : List snippet} :
    x ∈ insertDesc s l ↔ x = s ∨ x ∈ l := by
  induction l with
  | nil => simp [insertDesc]
  | cons r rest ih =>
    by_cases h : snipDescLt s r
    · rw [insertDesc, if_pos h]
      simp only [List.mem_cons]
    · rw [insertDesc, if_neg h]
      simp only [List.mem_cons, ih]
      tauto

theorem mem_sortDesc {x : snippet} {l : List snippet} :
    x ∈ sortDesc l ↔ x ∈ l := by
  induction l with
  | nil => simp [sortDesc]
  | cons a rest ih =>
    show x ∈ insertDesc a (sortDesc rest) ↔ _
    rw [mem_insertDesc, ih]
    simp

/-- Distinct `(modified, id)` pairs. -/
def snipKeyNe (a b : snippet) : Prop :=
  ¬ (a.Modified.sec = b.Modified.sec ∧ a.Modified.nsec = b.Modified.nsec ∧
     a.ID = b.ID)

theorem snipDescLt_of_not {a b : snippet} (hne : snipKeyNe a b)
    (h : ¬ snipDescLt a b) : snipDescLt b a := by
  rcases dkLt_cases b.Modified a.Modified b.ID a.ID with h2 | h2 | h2
  · exact absurd h2 h
  · exact absurd ⟨h2.1.symm, h2.2.1.symm, h2.2.2.symm⟩ hne
  · exact h2

theorem insertDesc_sorted {s : snippet} {l : List snippet}
    (hs : l.Pairwise snipDescLt) (hne : ∀ r ∈ l, snipKeyNe s r) :
    (insertDesc s l).Pairwise snipDescLt := by
  induction l with
  | nil => simp [insertDesc]
  | cons r rest ih =>
    rw [List.pairwise_cons] at hs
    obtain ⟨hr, hrest⟩ := hs
    by_cases h : snipDescLt s r
    · rw [insertDesc, if_pos h, List.pairwise_cons]
      refine ⟨?_, List.pairwise_cons.mpr ⟨hr, hrest⟩⟩
      intro x hx
      rcases List.mem_cons.mp hx with h2 | h2
      · rw [h2]; exact h
      · exact snipDescLt_trans h (hr x h2)
    · rw [insertDesc, if_neg h, List.pairwise_cons]
      refine ⟨?_, ih hrest (fun x hx => hne x (List.mem_cons_of_mem r hx))⟩
      intro x hx
      rcases mem_insertDesc.mp hx with h2 | h2
      · rw [h2]
        exact snipDescLt_of_not (hne r (List.mem_cons_self r rest)) h
      · exact hr x h2

theorem sortDesc_sorted {l : List snippet}
    (hne : l.Pairwise snipKeyNe) : (sortDesc l).Pairwise snipDescLt := by
  induction l with
  | nil => simp [sortDesc]
  | cons a rest ih =>
    rw [List.pairwise_cons] at hne
    obtain ⟨ha, hrest⟩ := hne
    show (insertDesc a (sortDesc rest)).Pairwise snipDescLt
    exact insertDesc_sorted (ih hrest) (fun r hr => ha r (mem_sortDesc.mp hr))

/-- The keys strictly below the search key form an initial segment of
the sorted by-date bucket. -/
def lowKeys (l : List (List Nat)) (sk : List Nat) : List (List Nat) :=
  l.takeWhile (fun k => decide (bLt k sk))

theorem mem_lowKeys_bLt {l : List (List Nat)} {sk k : List Nat}
    (h : k ∈ lowKeys l sk) : bLt k sk := by
  have := List.mem_takeWhile_imp h
  simpa using this

theorem lowKeys_append (l : List (List Nat)) (sk : List Nat) :
    lowKeys l sk ++ l.dropWhile (fun k => decide (bLt k sk)) = l := by
  unfold lowKeys
  exact List.takeWhile_append_dropWhile _ _

theorem lowKeys_length_le (l : List (List Nat)) (sk : List Nat) :
    (lowKeys l sk).length ≤ l.length :=
  (List.takeWhile_prefix _).length_le

theorem not_bLt_of_mem_dropWhile {l : List (List Nat)} {sk k : List Nat}
    (hs : dateSorted l)
    (h : k ∈ l.dropWhile (fun k => decide (bLt k sk))) : ¬ bLt k sk := by
  induction l with
  | nil => simp at h
  | cons q rest ih =>
    rw [dateSorted, List.pairwise_cons] at hs
    obtain ⟨hq, hrest⟩ := hs
    by_cases hp : bLt q sk
    · rw [List.dropWhile_cons, if_pos (by simpa using hp)] at h
      exact ih hrest h
    · rw [List.dropWhile_cons, if_neg (by simpa using hp)] at h
      rcases List.mem_cons.mp h with h1 | h1
      · rw [h1]; exact hp
      · intro hc
        exact hp (bLt_trans (hq k h1) hc)

theorem cSeek_spec (l : List (List Nat)) (sk : List Nat) :
    cSeek l sk =
      if (lowKeys l sk).length < l.length then some (lowKeys l sk).length
      else none := by
  induction l with
  | nil => simp [cSeek, lowKeys]
  | cons k rest ih =>
    by_cases h : bLt k sk
    · have hlk : lowKeys (k :: rest) sk = k :: lowKeys rest sk := by
        unfold lowKeys
        rw [List.takeWhile_cons, if_pos (by simpa using h)]
      rw [cSeek, if_neg (not_not_intro h), ih, hlk]
      by_cases h2 : (lowKeys rest sk).length < rest.length
      · rw [if_pos h2, if_pos (by simp; omega)]
        rfl
      · rw [if_neg h2, if_neg (by simp; omega)]
        rfl
    · have hlk : lowKeys (k :: rest) sk = [] := by
        unfold lowKeys
        rw [List.takeWhile_cons, if_neg (by simpa using h)]
      rw [cSeek, if_pos h, hlk]
      rw [if_pos (by simp)]
      rfl

theorem lowKeys_eq_take (l : List (List Nat)) (sk : List Nat) :
    l.take (lowKeys l sk).length = lowKeys l sk := by
  have h := @List.take_left' _ (lowKeys l sk)
    (l.dropWhile (fun k => decide (bLt k sk))) _
    (rfl : (lowKeys l sk).length = (lowKeys l sk).length)
  rw [lowKeys_append] at h
  exact h

theorem get_lowKeys_bLt {l : List (List Nat)} {sk : List Nat} {j : Nat}
    {k : List Nat} (hj : j < (lowKeys l sk).length) (hk : l.get? j = some k) :
    bLt k sk := by
  have h1 : (lowKeys l sk ++ l.dropWhile (fun k => decide (bLt k sk))).get? j
      = (lowKeys l sk).get? j := List.get?_append hj
  rw [lowKeys_append] at h1
  rw [h1] at hk
  exact mem_lowKeys_bLt (List.get?_mem hk)

theorem get_at_lowKeys_length {l : List (List Nat)} {sk : List Nat}
    {k : List Nat} (hs : dateSorted l)
    (hk : l.get? (lowKeys l sk).length = some k) : ¬ bLt k sk := by
  have h1 : (lowKeys l sk ++ l.dropWhile (fun k => decide (bLt k sk))).get?
        (lowKeys l sk).length
      = (l.dropWhile (fun k => decide (bLt k sk))).get?
        ((lowKeys l sk).length - (lowKeys l sk).length) :=
    List.get?_append_right (le_refl _)
  rw [lowKeys_append, Nat.sub_self] at h1
  rw [h1] at hk
  exact not_bLt_of_mem_dropWhile hs (List.get?_mem hk)

/-- Accumulate up to the limit: the result of appending the pending
descending records `D` to the already-collected `ss`. -/
def truncFrom (limit : Int) (ss D : List snippet) : List snippet :=
  if 0 ≤ limit then ss ++ D.take (limit.toNat - ss.length) else ss ++ D

theorem truncFrom_stop {limit : Int} {ss : List snippet} (D : List snippet)
    (h : limit ≤ ss.length ∧ 0 ≤ limit) : truncFrom limit ss D = ss := by
  unfold truncFrom
  rw [if_pos h.2]
  have : limit.toNat - ss.length = 0 := by omega
  rw [this, List.take_zero, List.append_nil]

theorem truncFrom_nil (limit : Int) (ss : List snippet) :
    truncFrom limit ss [] = ss := by
  unfold truncFrom
  split <;> simp

theorem truncFrom_cons {limit : Int} {ss : List snippet} (x : snippet)
    (D : List snippet) (h : ¬ (limit ≤ ss.length ∧ 0 ≤ limit)) :
    truncFrom limit ss (x :: D) = truncFrom limit (ss ++ [x]) D := by
  unfold truncFrom
  by_cases h0 : 0 ≤ limit
  · rw [if_pos h0, if_pos h0]
    have hlen : ss.length < limit := by omega
    have h1 : limit.toNat - ss.length = (limit.toNat - (ss ++ [x]).length) + 1 := by
      simp only [List.length_append, List.length_singleton]
      omega
    rw [h1, List.take_succ_cons]
    simp
  · rw [if_neg h0, if_neg h0]
    simp

theorem qbmLoop_all_lt (byID : List (List Nat × snippet))
    (byDate : List (List Nat)) (sk : List Nat) (limit : Int)
    (f : List Nat → snippet)
    (hf : ∀ k ∈ byDate, bktGet (k.drop 12) byID = some (f k)) :
    ∀ i ss, i < byDate.length →
      (∀ j k, j ≤ i → byDate.get? j = some k → bLt k sk) →
      qbmLoop byID byDate sk limit i ss =
        some (truncFrom limit ss (((byDate.take (i + 1)).reverse).map f)) := by
  intro i
  induction i with
  | zero =>
    intro ss hi hlt
    rcases hk : byDate.get? 0 with _ | k
    · rw [List.get?_eq_none] at hk
      omega
    · have hblt : bLt k sk := hlt 0 k (le_refl 0) hk
      have hk2 : byDate[0]? = some k := by
        rw [← List.get?_eq_getElem?]
        exact hk
      have htake : byDate.take 1 = [k] := by
        rw [List.take_succ, List.take_zero, hk2]
        rfl
      rw [qbmLoop]
      by_cases hbrk : limit ≤ (ss.length : Int) ∧ 0 ≤ limit
      · rw [if_pos hbrk, truncFrom_stop _ hbrk]
      · rw [if_neg hbrk]
        simp only [hk, qbmVisit, if_neg (not_not_intro hblt),
          hf k (List.get?_mem hk)]
        rw [htake]
        simp only [List.reverse_singleton, List.map_cons, List.map_nil]
        rw [truncFrom_cons _ _ hbrk, truncFrom_nil]
  | succ j ih =>
    intro ss hi hlt
    rcases hk : byDate.get? (j + 1) with _ | k
    · rw [List.get?_eq_none] at hk
      omega
    · have hblt : bLt k sk := hlt (j + 1) k (le_refl _) hk
      have hk2 : byDate[j + 1]? = some k := by
        rw [← List.get?_eq_getElem?]
        exact hk
      have htake : byDate.take (j + 2) = byDate.take (j + 1) ++ [k] := by
        rw [List.take_succ, hk2]
        rfl
      rw [qbmLoop]
      by_cases hbrk : limit ≤ (ss.length : Int) ∧ 0 ≤ limit
      · rw [if_pos hbrk, truncFrom_stop _ hbrk]
      · rw [if_neg hbrk]
        simp only [hk, qbmVisit, if_neg (not_not_intro hblt),
          hf k (List.get?_mem hk)]
        rw [ih (ss ++ [f k]) (by omega)
          (fun j2 k2 hj2 hk3 => hlt j2 k2 (by omega) hk3)]
        rw [htake]
        simp only [List.reverse_append, List.reverse_singleton, List.map_cons,
          List.singleton_append]
        rw [truncFrom_cons _ _ hbrk]

theorem qbmLoop_start_high (byID : List (List Nat × snippet))
    (byDate : List (List Nat)) (sk : List Nat) (limit : Int)
    (f : List Nat → snippet)
    (hf : ∀ k ∈ byDate, bktGet (k.drop 12) byID = some (f k))
    (i : Nat) (k : List Nat) (hk : byDate.get? i = some k)
    (hhigh : ¬ bLt k sk)
    (hlt : ∀ j k2, j < i → byDate.get? j = some k2 → bLt k2 sk) :
    qbmLoop byID byDate sk limit i [] =
      some (truncFrom limit [] ((byDate.take i).reverse.map f)) := by
  cases i with
  | zero =>
    rw [qbmLoop]
    by_cases hbrk : limit ≤ (([] : List snippet).length : Int) ∧ 0 ≤ limit
    · rw [if_pos hbrk, truncFrom_stop _ hbrk]
    · rw [if_neg hbrk]
      simp only [hk, qbmVisit, if_pos hhigh]
      rw [List.take_zero]
      simp only [List.reverse_nil, List.map_nil]
      rw [truncFrom_nil]
  | succ j =>
    rw [qbmLoop]
    by_cases hbrk : limit ≤ (([] : List snippet).length : Int) ∧ 0 ≤ limit
    · rw [if_pos hbrk, truncFrom_stop _ hbrk]
    · rw [if_neg hbrk]
      simp only [hk, qbmVisit, if_pos hhigh]
      have hjlen : j < byDate.length := by
        have h2 : byDate.get? (j + 1) ≠ none := by
          rw [hk]
          simp
        rw [Ne, List.get?_eq_none] at h2
        omega
      exact qbmLoop_all_lt byID byDate sk limit f hf j []
        hjlen (fun j2 k2 hj2 hk3 => hlt j2 k2 (by omega) hk3)

theorem truncFrom_eq_truncLimit (limit : Int) (D : List snippet) :
    truncFrom limit [] D = truncLimit limit D := by
  unfold truncFrom truncLimit
  split <;> simp

theorem mem_lowKeys_of_mem {l : List (List Nat)} {sk k : List Nat}
    (hs : dateSorted l) (hm : k ∈ l) (hlt : bLt k sk) : k ∈ lowKeys l sk := by
  rw [← lowKeys_append l sk] at hm
  rcases List.mem_append.mp hm with h | h
  · exact h
  · exact absurd hlt (not_bLt_of_mem_dropWhile hs h)

theorem lowKeys_sorted {l : List (List Nat)} (sk : List Nat)
    (hs : dateSorted l) : List.Pairwise bLt (lowKeys l sk) :=
  List.Pairwise.sublist (List.takeWhile_prefix _).sublist hs

/-- Reduce `QueryByModified` to the collected low-key segment. -/
theorem QueryByModified_loop_reduction (db : database) (lastTime : GoTime)
    (lastID : Int) (limit : Int) (f : List Nat → snippet)
    (hsD : dateSorted db.byDate)
    (hf : ∀ k ∈ db.byDate, bktGet (k.drop 12) db.byID = some (f k)) :
    QueryByModified db lastTime lastID limit =
      some (truncFrom limit []
        ((lowKeys db.byDate
            (dualKey (effCursor lastTime lastID).2
              (effCursor lastTime lastID).1)).reverse.map f)) := by
  have hQ : QueryByModified db lastTime lastID limit =
      (match (match cSeek db.byDate
                (dualKey (effCursor lastTime lastID).2
                  (effCursor lastTime lastID).1) with
              | some i => some i
              | none => cLast db.byDate) with
       | none => some []
       | some i => qbmLoop db.byID db.byDate
           (dualKey (effCursor lastTime lastID).2
             (effCursor lastTime lastID).1) limit i []) := rfl
  rw [hQ]
  generalize hskeq : dualKey (effCursor lastTime lastID).2
    (effCursor lastTime lastID).1 = sk
  rw [cSeek_spec db.byDate sk]
  by_cases hm : (lowKeys db.byDate sk).length < db.byDate.length
  · rw [if_pos hm]
    simp only
    rcases hk : db.byDate.get? (lowKeys db.byDate sk).length with _ | k
    · rw [List.get?_eq_none] at hk
      omega
    · have hhigh : ¬ bLt k sk := get_at_lowKeys_length hsD hk
      have hlow : ∀ j k2, j < (lowKeys db.byDate sk).length →
          db.byDate.get? j = some k2 → bLt k2 sk :=
        fun j k2 hj hk2 => get_lowKeys_bLt hj hk2
      rw [qbmLoop_start_high db.byID db.byDate sk limit f hf _ k hk hhigh hlow]
      rw [lowKeys_eq_take]
  · rw [if_neg hm]
    simp only
    by_cases hempty : db.byDate = []
    · have h0 : cLast db.byDate = none := by
        rw [hempty]
        rfl
      rw [h0]
      simp only
      have hlk : lowKeys db.byDate sk = [] := by
        rw [hempty]
        rfl
      rw [hlk]
      simp only [List.reverse_nil, List.map_nil]
      rw [truncFrom_nil]
    · have hlen : 0 < db.byDate.length := List.length_pos.mpr hempty
      have hclast : cLast db.byDate = some (db.byDate.length - 1) := by
        unfold cLast
        rw [if_neg (by simp [List.isEmpty_iff, hempty])]
      rw [hclast]
      simp only
      have hmlen : (lowKeys db.byDate sk).length = db.byDate.length := by
        have := lowKeys_length_le db.byDate sk
        omega
      have hlow : ∀ j k2, j ≤ db.byDate.length - 1 →
          db.byDate.get? j = some k2 → bLt k2 sk := by
        intro j k2 hj hk2
        exact get_lowKeys_bLt (by omega) hk2
      rw [qbmLoop_all_lt db.byID db.byDate sk limit f hf
        (db.byDate.length - 1) [] (by omega) hlow]
      have htk : db.byDate.length - 1 + 1 = db.byDate.length := by omega
      rw [htk, List.take_length]
      have hall : db.byDate = lowKeys db.byDate sk := by
        have h2 := lowKeys_eq_take db.byDate sk
        rw [hmlen, List.take_length] at h2
        exact h2
      rw [← hall]

theorem records_ranges {db : database} (hwf : dbWf db) :
    ∀ s ∈ records db, isInt64 s.ID ∧ timeRep s.Modified := by
  obtain ⟨_, _, _, hir, _, hl2, _⟩ := hwf
  intro s hs
  obtain ⟨p, hp, hps⟩ := List.mem_map.mp hs
  obtain ⟨h1, h2, h3⟩ := hir p hp
  rw [← hps]
  exact ⟨⟨by omega, by omega⟩, h3⟩

theorem records_keyNe {db : database} (hwf : dbWf db) :
    (records db).Pairwise (fun a b => a.ID ≠ b.ID) := by
  obtain ⟨hsID, _, hkm, _, _, _, _⟩ := hwf
  unfold records
  rw [List.pairwise_map]
  refine hsID.imp_of_mem ?_
  intro p q hp hq hlt heq
  have h1 := hkm p hp
  have h2 := hkm q hq
  rw [h1, h2, heq] at hlt
  exact bLt_irrefl _ hlt

/-- `QueryByModified` refines its specification: it returns exactly the
records strictly below the effective cursor, in descending
`(modified, id)` order, truncated to non-negative limits. -/
theorem QueryByModified_eq {db : database} (lastTime : GoTime) (lastID : Int)
    (limit : Int) (hwf : dbWf db) (ht : timeRep lastTime) (hid : isInt64 lastID) :
    QueryByModified db lastTime lastID limit =
      some (qbmSpec db (effCursor lastTime lastID).1
        (effCursor lastTime lastID).2 limit) := by
  have hwf2 := hwf
  obtain ⟨hsID, hsD, hkm, hir, hl1, hl2, hcons1, hcons2⟩ := hwf2
  have hc1 : timeRep (effCursor lastTime lastID).1 := by
    unfold effCursor
    split
    · decide
    · exact ht
  have hc2 : isInt64 (effCursor lastTime lastID).2 := by
    unfold effCursor
    split
    · decide
    · exact hid
  have hfval : ∀ k ∈ db.byDate, ∃ p ∈ db.byID,
      k = dualKey p.2.ID p.2.Modified ∧
        bktGet (k.drop 12) db.byID = some p.2 := by
    intro k hk
    obtain ⟨p, hp, hpk⟩ := hcons1 k hk
    have hdrop : k.drop 12 = idKey p.2.ID := by
      rw [hpk]
      exact dualKey_drop12 _ _
    have hpe : (idKey p.2.ID, p.2) ∈ db.byID := by
      rw [← hkm p hp]
      exact hp
    exact ⟨p, hp, hpk, by rw [hdrop]; exact bktGet_of_mem hsID hpe⟩
  have hf : ∀ k ∈ db.byDate, bktGet (k.drop 12) db.byID =
      some ((fun k2 => (bktGet (k2.drop 12) db.byID).getD default) k) := by
    intro k hk
    obtain ⟨p, hp, hpk, hget⟩ := hfval k hk
    simp only [hget, Option.getD_some]
  rw [QueryByModified_loop_reduction db lastTime lastID limit
    (fun k2 => (bktGet (k2.drop 12) db.byID).getD default) hsD hf]
  congr 1
  rw [truncFrom_eq_truncLimit]
  unfold qbmSpec
  congr 1
  have hkf : ∀ k ∈ db.byDate,
      dualKey ((fun k2 => (bktGet (k2.drop 12) db.byID).getD default) k).ID
        ((fun k2 => (bktGet (k2.drop 12) db.byID).getD default) k).Modified = k := by
    intro k hk
    obtain ⟨p, hp, hpk, hget⟩ := hfval k hk
    simp only [hget, Option.getD_some]
    rw [← hpk]
  have hfrec : ∀ k ∈ db.byDate,
      (fun k2 => (bktGet (k2.drop 12) db.byID).getD default) k ∈ records db := by
    intro k hk
    obtain ⟨p, hp, hpk, hget⟩ := hfval k hk
    simp only [hget, Option.getD_some]
    exact List.mem_map.mpr ⟨p, hp, rfl⟩
  have hsubkeys : ∀ k ∈ lowKeys db.byDate
      (dualKey (effCursor lastTime lastID).2 (effCursor lastTime lastID).1),
      k ∈ db.byDate :=
    fun k hk => (List.takeWhile_prefix _).sublist.subset hk
  apply @sorted_eq_of_mem_iff _ snipDescLt
    (fun h1 h2 => snipDescLt_trans h1 h2) snipDescLt_irrefl
  · rw [List.pairwise_map, List.pairwise_reverse]
    refine (lowKeys_sorted _ hsD).imp_of_mem ?_
    intro k1 k2 hk1 hk2 hlt
    have hm1 := hsubkeys k1 hk1
    have hm2 := hsubkeys k2 hk2
    have hr1 := records_ranges hwf _ (hfrec k1 hm1)
    have hr2 := records_ranges hwf _ (hfrec k2 hm2)
    show dkLt _ _ _ _
    rw [← bytesCompare_dualKey_lt_iff hr1.1 hr2.1 hr1.2 hr2.2]
    rw [hkf k1 hm1, hkf k2 hm2]
    exact hlt
  · apply sortDesc_sorted
    refine List.Pairwise.sublist (List.filter_sublist _) ?_
    refine (records_keyNe hwf).imp ?_
    intro a b hne hc
    exact hne hc.2.2
  · intro x
    rw [mem_sortDesc, List.mem_filter, List.mem_map]
    constructor
    · rintro ⟨k, hk, hfk⟩
      rw [List.mem_reverse] at hk
      have hm := hsubkeys k hk
      have hblt : bLt k
          (dualKey (effCursor lastTime lastID).2 (effCursor lastTime lastID).1) :=
        mem_lowKeys_bLt hk
      have hxrec : x ∈ records db := by
        rw [← hfk]
        exact hfrec k hm
      have hr := records_ranges hwf x hxrec
      have h2 : dualKey x.ID x.Modified = k := by
        rw [← hfk]
        exact hkf k hm
      refine ⟨hxrec, ?_⟩
      rw [decide_eq_true_iff]
      rw [← bytesCompare_dualKey_lt_iff hr.1 hc2 hr.2 hc1, h2]
      exact hblt
    · rintro ⟨hxrec, hpred⟩
      rw [decide_eq_true_iff] at hpred
      obtain ⟨p, hp, hps⟩ := List.mem_map.mp hxrec
      have hr := records_ranges hwf x hxrec
      have hkmem : dualKey x.ID x.Modified ∈ db.byDate := by
        have h2 := hcons2 p hp
        rw [hps] at h2
        exact h2
      have hblt : bLt (dualKey x.ID x.Modified)
          (dualKey (effCursor lastTime lastID).2 (effCursor lastTime lastID).1) := by
        rw [bLt, bytesCompare_dualKey_lt_iff hr.1 hc2 hr.2 hc1]
        exact hpred
      have hklow := mem_lowKeys_of_mem hsD hkmem hblt
      refine ⟨dualKey x.ID x.Modified, List.mem_reverse.mpr hklow, ?_⟩
      have hdrop : (dualKey x.ID x.Modified).drop 12 = idKey x.ID :=
        dualKey_drop12 _ _
      have hpe : (idKey x.ID, x) ∈ db.byID := by
        have h3 := hkm p hp
        rw [← hps, ← h3]
        exact hp
      simp only [hdrop, bktGet_of_mem hsID hpe, Option.getD_some]

theorem pairwise_get?_rel {α : Type} {r : α → α → Prop} {l : List α}
    (hp : l.Pairwise r) :
    ∀ {i j : Nat} {a b : α}, i < j → l.get? i = some a → l.get? j = some b →
      r a b := by
  induction l with
  | nil =>
    intro i j a b hij ha hb
    simp [List.get?] at ha
  | cons x t ih =>
    rw [List.pairwise_cons] at hp
    obtain ⟨hx, ht⟩ := hp
    intro i j a b hij ha hb
    cases i with
    | zero =>
      cases j with
      | zero => omega
      | succ j2 =>
        simp only [List.get?] at ha hb
        injection ha with ha2
        rw [← ha2]
        exact hx b (List.get?_mem hb)
    | succ i2 =>
      cases j with
      | zero => omega
      | succ j2 =>
        simp only [List.get?] at ha hb
        exact ih ht (by omega) ha hb

theorem qbmFull_sorted {db : database} (hwf : dbWf db) (p : snippet → Bool) :
    (sortDesc ((records db).filter p)).Pairwise snipDescLt := by
  apply sortDesc_sorted
  refine List.Pairwise.sublist (List.filter_sublist _) ?_
  refine (records_keyNe hwf).imp ?_
  intro a b hne hc
  exact hne hc.2.2

/-- Resumption: appending the query resumed at the cursor of the last
returned record extends the original enumeration with no overlap and
no gap. -/
theorem qbmSpec_resume {db : database} (hwf : dbWf db) (t : GoTime) (cid : Int)
    (n m : Int) (hn : 0 ≤ n) (hm : 0 ≤ m) (s0 : snippet)
    (hlast : (qbmSpec db t cid n).getLast? = some s0) :
    qbmSpec db t cid n ++ qbmSpec db s0.Modified s0.ID m =
      qbmSpec db t cid (n + m) := by
  have hq : ∀ j : Int, 0 ≤ j → qbmSpec db t cid j =
      (sortDesc ((records db).filter
        (fun s => decide (dkLt s.Modified s.ID t cid)))).take j.toNat := by
    intro j hj
    unfold qbmSpec truncLimit
    rw [if_pos hj]
  have hsorted : (sortDesc ((records db).filter
      (fun s => decide (dkLt s.Modified s.ID t cid)))).Pairwise snipDescLt :=
    qbmFull_sorted hwf _
  generalize hL : sortDesc ((records db).filter
    (fun s => decide (dkLt s.Modified s.ID t cid))) = L at hq hsorted
  rw [hq n hn] at hlast
  have hlen : 0 < (L.take n.toNat).length := by
    by_contra hc
    push_neg at hc
    have h0 : L.take n.toNat = [] := List.eq_nil_of_length_eq_zero (by omega)
    rw [h0] at hlast
    simp at hlast
  set n2 := (L.take n.toNat).length with hn2
  have hn2min : n2 = min n.toNat L.length := by
    rw [hn2, List.length_take]
  have hs0get : L.get? (n2 - 1) = some s0 := by
    rw [List.getLast?_eq_get?] at hlast
    rw [← hn2] at hlast
    rw [← List.get?_take (by omega : n2 - 1 < n.toNat)]
    exact hlast
  have hs0L : s0 ∈ L := List.get?_mem hs0get
  have hs0f : s0 ∈ records db ∧ dkLt s0.Modified s0.ID t cid := by
    rw [← hL] at hs0L
    rw [mem_sortDesc, List.mem_filter, decide_eq_true_iff] at hs0L
    exact hs0L
  have hmemL : ∀ x, x ∈ L ↔ x ∈ records db ∧ dkLt x.Modified x.ID t cid := by
    intro x
    rw [← hL, mem_sortDesc, List.mem_filter, decide_eq_true_iff]
  have hdropA : sortDesc ((records db).filter
      (fun s => decide (dkLt s.Modified s.ID s0.Modified s0.ID))) =
        L.drop n2 := by
    apply @sorted_eq_of_mem_iff _ snipDescLt
      (fun h1 h2 => snipDescLt_trans h1 h2) snipDescLt_irrefl
    · exact qbmFull_sorted hwf _
    · exact List.Pairwise.sublist (List.drop_sublist _ _) hsorted
    · intro x
      rw [mem_sortDesc, List.mem_filter, decide_eq_true_iff]
      constructor
      · rintro ⟨hxr, hxlt⟩
        have hxL : x ∈ L := (hmemL x).mpr
          ⟨hxr, dkLt_trans hxlt hs0f.2⟩
        obtain ⟨jf, hjf⟩ := List.mem_iff_get?.mp hxL
        have hjge : n2 ≤ jf := by
          by_contra hc
          push_neg at hc
          rcases Nat.lt_or_ge jf (n2 - 1) with h2 | h2
          · have := pairwise_get?_rel hsorted h2 hjf hs0get
            exact dkLt_asymm hxlt this
          · have hjeq : jf = n2 - 1 := by omega
            rw [hjeq, hs0get] at hjf
            injection hjf with h3
            rw [h3] at hxlt
            exact dkLt_irrefl _ _ hxlt
        rw [List.mem_iff_get?]
        refine ⟨jf - n2, ?_⟩
        rw [List.get?_drop]
        have : n2 + (jf - n2) = jf := by omega
        rw [this]
        exact hjf
      · intro hx
        obtain ⟨jf, hjf⟩ := List.mem_iff_get?.mp hx
        rw [List.get?_drop] at hjf
        have hxL : x ∈ L := List.get?_mem hjf
        refine ⟨((hmemL x).mp hxL).1, ?_⟩
        exact pairwise_get?_rel hsorted (by omega) hs0get hjf
  have hq2 : qbmSpec db s0.Modified s0.ID m = (L.drop n2).take m.toNat := by
    unfold qbmSpec truncLimit
    rw [if_pos hm, hdropA]
  rw [hq n hn, hq2, hq (n + m) (by omega)]
  have hdropeq : L.drop n.toNat = L.drop n2 := by
    rcases Nat.lt_or_ge n.toNat L.length with h2 | h2
    · have : n2 = n.toNat := by omega
      rw [this]
    · have : n2 = L.length := by omega
      rw [this, List.drop_eq_nil_of_le h2, List.drop_eq_nil_of_le (le_refl _)]
  rw [Int.toNat_add hn hm, List.take_add, hdropeq]

theorem records_pos {db : database} (hwf : dbWf db) :
    ∀ s ∈ records db, 1 ≤ s.ID := by
  obtain ⟨_, _, _, hir, _⟩ := hwf
  intro s hs
  obtain ⟨p, hp, hps⟩ := List.mem_map.mp hs
  rw [← hps]
  exact (hir p hp).1

theorem mem_of_mem_qbmSpec {db : database} {t : GoTime} {cid limit : Int}
    {s : snippet} (h : s ∈ qbmSpec db t cid limit) : s ∈ records db := by
  unfold qbmSpec truncLimit at h
  have h2 : s ∈ sortDesc ((records db).filter
      (fun s2 => decide (dkLt s2.Modified s2.ID t cid))) := by
    split at h
    · exact (List.take_sublist _ _).subset h
    · exact h
  rw [mem_sortDesc, List.mem_filter] at h2
  exact h2.1

/-- Claim C3 (confirmed): `QueryByModified(beforeTime, beforeID,
limit)` returns exactly the records whose `(modified, id)` is strictly
below the cursor, in descending `(modified, id)` order, truncated to
`limit` when `limit` is non-negative; a zero cursor acts as `+∞`
(everything, newest first, provided the stored instants precede
`maxTime`); and re-querying from the cursor of the last returned
element resumes the enumeration with no overlap and no gap. -/
theorem queryByModifiedCursor (db : database) (lastTime : GoTime)
    (lastID : Int) (limit : Int) (hwf : dbWf db)
    (ht : timeRep lastTime) (hid : isInt64 lastID)
    (hy : ∀ s ∈ records db, dkLt s.Modified s.ID maxTime maxID) :
    (QueryByModified db lastTime lastID limit =
      some (qbmSpec db (effCursor lastTime lastID).1
        (effCursor lastTime lastID).2 limit)) ∧
    ((lastTime.isZero ∧ lastID = 0) →
      qbmSpec db (effCursor lastTime lastID).1 (effCursor lastTime lastID).2
          limit = truncLimit limit (sortDesc (records db))) ∧
    (∀ (n m : Int) (s0 : snippet), 0 ≤ n → 0 ≤ m →
      (qbmSpec db (effCursor lastTime lastID).1
          (effCursor lastTime lastID).2 n).getLast? = some s0 →
      QueryByModified db s0.Modified s0.ID m =
          some (qbmSpec db s0.Modified s0.ID m) ∧
        qbmSpec db (effCursor lastTime lastID).1
            (effCursor lastTime lastID).2 n ++
          qbmSpec db s0.Modified s0.ID m =
          qbmSpec db (effCursor lastTime lastID).1
            (effCursor lastTime lastID).2 (n + m)) := by
  refine ⟨QueryByModified_eq lastTime lastID limit hwf ht hid, ?_, ?_⟩
  · intro hzero
    have heff : effCursor lastTime lastID = (maxTime, maxID) := by
      unfold effCursor
      rw [if_pos hzero]
    rw [heff]
    unfold qbmSpec
    have hfil : (records db).filter
        (fun s => decide (dkLt s.Modified s.ID maxTime maxID)) = records db := by
      rw [List.filter_eq_self]
      intro s hs
      rw [decide_eq_true_iff]
      exact hy s hs
    rw [hfil]
  · intro n m s0 hn hm hlast
    have hs0rec : s0 ∈ records db :=
      mem_of_mem_qbmSpec (List.mem_of_mem_getLast? hlast)
    have hs0r := records_ranges hwf s0 hs0rec
    have hs0pos := records_pos hwf s0 hs0rec
    have heff0 : effCursor s0.Modified s0.ID = (s0.Modified, s0.ID) := by
      unfold effCursor
      rw [if_neg]
      intro hc
      omega
    constructor
    · have h2 := QueryByModified_eq s0.Modified s0.ID m hwf hs0r.2 hs0r.1
      rw [heff0] at h2
      exact h2
    · exact qbmSpec_resume hwf _ _ n m hn hm s0 hlast

theorem queryByModifiedCursor_witness :
    QueryByModified (openDatabase [] []) goZeroTime 0 10 =
      some (qbmSpec (openDatabase [] []) (effCursor goZeroTime 0).1
        (effCursor goZeroTime 0).2 10) :=
  (queryByModifiedCursor (openDatabase [] []) goZeroTime 0 10
    (by decide) (by decide) (by decide) (by decide)).1

/-! ## Directive parser classification (claim C6)

`parseFile` walks the top-level declarations of the parsed file; a
function declaration is reduced to whether it has a receiver, its
name, and the `NumFields()` counts of its parameter and result lists
(`nil` lists count 0). -/

structure FuncDecl where
  hasRecv : Bool
  name : String
  nParams : Nat
  nResults : Nat
  deriving DecidableEq, Repr

/-- Go `strings.HasPrefix`. -/
def goHasPrefix (pre s : String) : Bool := pre.data.isPrefixOf s.data

/-- The `hasMain` disjunct accumulated per declaration. -/
def isMainDecl (fd : FuncDecl) : Bool :=
  !fd.hasRecv && fd.name == "main" && fd.nParams == 0 && fd.nResults == 0

/-- The `hasTests` disjunct accumulated per declaration. -/
def isTestDecl (fd : FuncDecl) : Bool :=
  !fd.hasRecv &&
    (goHasPrefix "Benchmark" fd.name || goHasPrefix "Test" fd.name) &&
    fd.nParams == 1 && fd.nResults == 0

/-- The classification loop of `parseFile`: `hasMain` and `hasTests`
are accumulated with `||` over all declarations. -/
def parseFileFuncs (dd : List FuncDecl) : Bool × Bool :=
  dd.foldl (fun acc fd => (acc.1 || isMainDecl fd, acc.2 || isTestDecl fd))
    (false, false)

/-- `parseFile` rejects with "Program must have either a main function
or a set of test functions." exactly when `hasMain == hasTests`. -/
def parseFileRejected (dd : List FuncDecl) : Bool :=
  (parseFileFuncs dd).1 == (parseFileFuncs dd).2

theorem parseFileFuncs_foldl (dd : List FuncDecl) : ∀ a b : Bool,
    dd.foldl (fun acc fd => (acc.1 || isMainDecl fd, acc.2 || isTestDecl fd))
      (a, b) = (a || dd.any isMainDecl, b || dd.any isTestDecl) := by
  induction dd with
  | nil => intro a b; simp
  | cons fd rest ih =>
    intro a b
    rw [List.foldl_cons, ih]
    simp [Bool.or_assoc]

/-- Claim C6 (corrected): `hasMain` holds iff at least one (not
exactly one) receiver-less `main` with no parameters and no results is
declared; `hasTests` iff some receiver-less `Test*`/`Benchmark*`
function takes one parameter and returns nothing; the run is rejected
exactly when `hasMain == hasTests`. -/
theorem parseFileClassification (dd : List FuncDecl) :
    ((parseFileFuncs dd).1 = true ↔ ∃ fd ∈ dd, isMainDecl fd = true) ∧
    ((parseFileFuncs dd).2 = true ↔ ∃ fd ∈ dd, isTestDecl fd = true) ∧
    (parseFileRejected dd = true ↔ (parseFileFuncs dd).1 = (parseFileFuncs dd).2) := by
  unfold parseFileRejected parseFileFuncs
  rw [parseFileFuncs_foldl]
  simp only [Bool.false_or]
  refine ⟨?_, ?_, ?_⟩
  · rw [List.any_eq_true]
  · rw [List.any_eq_true]
  · rw [beq_iff_eq]

/-- Claim C6 counterexample: a parseable file with two identical
`func main()` declarations.  The code's `hasMain` is true (any-match)
and the run is accepted, while the exactly-one reading would make
`hasMain` false and `hasMain == hasTests` would reject the run. -/
theorem parseFileTwoMains :
    (parseFileFuncs [⟨false, "main", 0, 0⟩, ⟨false, "main", 0, 0⟩]).1 = true ∧
    List.countP isMainDecl [⟨false, "main", 0, 0⟩, ⟨false, "main", 0, 0⟩] = 2 ∧
    ¬ ((parseFileFuncs [⟨false, "main", 0, 0⟩, ⟨false, "main", 0, 0⟩]).1 = true ↔
        List.countP isMainDecl
          [⟨false, "main", 0, 0⟩, ⟨false, "main", 0, 0⟩] = 1) ∧
    parseFileRejected [⟨false, "main", 0, 0⟩, ⟨false, "main", 0, 0⟩] = false := by
  decide

/-! ## Blob store (claim C7) -/

structure blob where
  data : List Nat
  mime : String
  deriving DecidableEq, Repr

/-- `blobStore.Insert`: the id is the content digest of the data (the
`md5.Sum`/`hex.EncodeToString` collaborators are abstracted as
`hash`); the map entry is overwritten.  The map is an association list
queried by first match, so prepending models overwrite. -/
def blobInsert (hash : List Nat → String) (b : blob)
    (m : List (String × blob)) : String × List (String × blob) :=
  (hash b.data, (hash b.data, b) :: m)

/-- `blobStore.Retrieve`: map lookup, zero-valued blob when absent. -/
def blobRetrieve (id : String) (m : List (String × blob)) : blob :=
  match m.find? (fun p => p.1 == id) with
  | some p => p.2
  | none => ⟨[], ""⟩

/-- Claim C7 (corrected): blobs with byte-identical data get the same
id (the digest of the data; MIME is excluded from identity), and an
absent id retrieves the zero-valued blob; but a re-insert overwrites
the stored blob, so the stored MIME is that of the latest insert — it
is unchanged from the first insert only when the MIMEs agree. -/
theorem blobInsertIdempotent (hash : List Nat → String) (b1 b2 : blob)
    (m : List (String × blob)) (hdata : b1.data = b2.data) :
    (blobInsert hash b1 m).1 = (blobInsert hash b2 m).1 ∧
    blobRetrieve (blobInsert hash b2 (blobInsert hash b1 m).2).1
        (blobInsert hash b2 (blobInsert hash b1 m).2).2 = b2 ∧
    (b1.mime = b2.mime →
      blobRetrieve (blobInsert hash b2 (blobInsert hash b1 m).2).1
        (blobInsert hash b2 (blobInsert hash b1 m).2).2 = b1) ∧
    (∀ (id : String) (m2 : List (String × blob)),
      (∀ p ∈ m2, p.1 ≠ id) → blobRetrieve id m2 = ⟨[], ""⟩) := by
  refine ⟨?_, ?_, ?_, ?_⟩
  · show hash b1.data = hash b2.data
    rw [hdata]
  · show blobRetrieve (hash b2.data) ((hash b2.data, b2) :: _) = b2
    unfold blobRetrieve
    rw [List.find?_cons_of_pos _ (by simp)]
  · intro hmime
    show blobRetrieve (hash b2.data) ((hash b2.data, b2) :: _) = b1
    unfold blobRetrieve
    rw [List.find?_cons_of_pos _ (by simp)]
    cases b1
    cases b2
    simp only at hdata hmime
    simp [hdata, hmime]
  · intro id m2 hnone
    unfold blobRetrieve
    rw [List.find?_eq_none.mpr]
    intro p hp
    simp only [beq_iff_eq]
    exact hnone p hp

theorem blobInsertIdempotent_witness :
    ([1] : List Nat) = [1] ∧
    (blobInsert (fun d => toString d.length) ⟨[1], "text/html"⟩ []).1 =
      (blobInsert (fun d => toString d.length) ⟨[1], "text/html"⟩ []).1 :=
  ⟨rfl,
    (blobInsertIdempotent (fun d => toString d.length) ⟨[1], "text/html"⟩
      ⟨[1], "text/html"⟩ [] rfl).1⟩

/-- Claim C7 counterexample: two blobs with identical data and
different MIME; after the second insert the stored MIME is that of the
second insert, not the first. -/
theorem blobMimeOverwritten :
    (blobRetrieve
        (blobInsert (fun d => toString d.length) ⟨[1], "text/html"⟩
          (blobInsert (fun d => toString d.length)
            ⟨[1], "image/svg+xml"⟩ []).2).1
        (blobInsert (fun d => toString d.length) ⟨[1], "text/html"⟩
          (blobInsert (fun d => toString d.length)
            ⟨[1], "image/svg+xml"⟩ []).2).2).mime = "text/html" ∧
      "text/html" ≠ "image/svg+xml" := by
  constructor
  · rfl
  · decide

/-! ## Diagnostic extraction (claim C8)

`reportBadLines` splits the captured stderr on newlines and matches
each line against `^(\./)?main(_test)?\.go:(\d+)`; the matched digit
run is parsed by `strconv.Atoi` (whose error is discarded) and the
collected values are JSON-encoded into one `MarkLines` frame. -/

/-- Match `main(_test)?\.go:(\d+)` after the optional `./` and return
the captured digit run (maximal, at least one digit).  The optional
`_test` group backtracks exactly as the regexp does. -/
def matchBadLineCore (rest1 : List Char) : Option (List Char) :=
  if rest1.take 4 = ['m', 'a', 'i', 'n'] then
    (match (if (rest1.drop 4).take 9 =
              ['_', 't', 'e', 's', 't', '.', 'g', 'o', ':'] then
            some ((rest1.drop 4).drop 9)
          else if (rest1.drop 4).take 4 = ['.', 'g', 'o', ':'] then
            some ((rest1.drop 4).drop 4)
          else none : Option (List Char)) with
      | none => none
      | some r =>
        let ds := r.takeWhile Char.isDigit
        if ds = [] then none else some ds)
  else none

/-- Match `^(\./)?main(_test)?\.go:(\d+)` at the start of a line. -/
def matchBadLine (s : List Char) : Option (List Char) :=
  matchBadLineCore (if s.take 2 = ['.', '/'] then s.drop 2 else s)

/-- The numeric value of a digit run. -/
def digitsVal (ds : List Char) : Nat :=
  ds.foldl (fun acc c => 10 * acc + (c.toNat - 48)) 0

/-- `strconv.Atoi` on a digit run with the error discarded: the value,
clamped to `math.MaxInt64` when out of range (64-bit `int`). -/
def goAtoiDigits (ds : List Char) : Int :=
  if (digitsVal ds : Int) ≤ 2 ^ 63 - 1 then (digitsVal ds : Int)
  else 2 ^ 63 - 1

/-- `json.Marshal` of a non-empty `[]int`. -/
def jsonIntList (l : List Int) : String :=
  "[" ++ String.intercalate "," (l.map toString) ++ "]"

/-- `reportBadLines`: the data of the emitted `MarkLines` frame, or
`none` when no line matched and no frame is sent. -/
def reportBadLines (b : List Char) : Option String :=
  let lines := ((b.splitOn '\n').filterMap matchBadLine).map goAtoiDigits
  if 0 < lines.length then some (jsonIntList lines) else none

/-- The declarative reading of the line pattern: an optional `./`,
then `main.go:` or `main_test.go:`, then a maximal non-empty digit
run. -/
def badLineDecomp (line : List Char) (d : List Char) : Prop :=
  ∃ pre nm rest, line = pre ++ nm ++ d ++ rest ∧
    (pre = [] ∨ pre = ['.', '/']) ∧
    (nm = ['m', 'a', 'i', 'n', '.', 'g', 'o', ':'] ∨
     nm = ['m', 'a', 'i', 'n', '_', 't', 'e', 's', 't', '.', 'g', 'o', ':']) ∧
    d ≠ [] ∧ (∀ c ∈ d, c.isDigit = true) ∧
    (∀ c, rest.head? = some c → c.isDigit = false)

theorem head?_dropWhile_not {α : Type} (p : α → Bool) (l : List α) {c : α}
    (h : (l.dropWhile p).head? = some c) : p c = false := by
  induction l with
  | nil => simp [List.dropWhile] at h
  | cons x t ih =>
    by_cases hp : p x = true
    · rw [List.dropWhile_cons, if_pos hp] at h
      exact ih h
    · rw [List.dropWhile_cons, if_neg hp] at h
      simp only [List.head?] at h
      injection h with h2
      rw [← h2]
      exact Bool.eq_false_iff.mpr hp

theorem takeWhile_append_all {α : Type} (p : α → Bool) (d rest : List α)
    (hd : ∀ c ∈ d, p c = true)
    (hrest : ∀ c, rest.head? = some c → p c = false) :
    (d ++ rest).takeWhile p = d := by
  induction d with
  | nil =>
    cases rest with
    | nil => rfl
    | cons c t =>
      simp only [List.nil_append, List.takeWhile_cons]
      rw [hrest c rfl]
      rfl
  | cons x t ih =>
    simp only [List.cons_append, List.takeWhile_cons]
    rw [hd x (List.mem_cons_self x t)]
    simp only [ite_true]
    rw [ih (fun c hc => hd c (List.mem_cons_of_mem x hc))]

theorem matchBadLine_inner_iff (rest1 d : List Char) :
    (if rest1.take 4 = ['m', 'a', 'i', 'n'] then
      (match (if (rest1.drop 4).take 9 =
                ['_', 't', 'e', 's', 't', '.', 'g', 'o', ':'] then
              some ((rest1.drop 4).drop 9)
            else if (rest1.drop 4).take 4 = ['.', 'g', 'o', ':'] then
              some ((rest1.drop 4).drop 4)
            else none : Option (List Char)) with
        | none => none
        | some r =>
          let ds := r.takeWhile Char.isDigit
          if ds = [] then none else some ds)
    else none) = some d ↔
      (∃ nm rest, rest1 = nm ++ d ++ rest ∧
        (nm = ['m', 'a', 'i', 'n', '.', 'g', 'o', ':'] ∨
         nm = ['m', 'a', 'i', 'n', '_', 't', 'e', 's', 't', '.', 'g', 'o', ':']) ∧
        d ≠ [] ∧ (∀ c ∈ d, c.isDigit = true) ∧
        (∀ c, rest.head? = some c → c.isDigit = false)) := by
  constructor
  · intro h
    by_cases hm4 : rest1.take 4 = ['m', 'a', 'i', 'n']
    swap
    · rw [if_neg hm4] at h
      exact absurd h (by simp)
    rw [if_pos hm4] at h
    have hsplit4 : rest1 = ['m', 'a', 'i', 'n'] ++ rest1.drop 4 := by
      conv_lhs => rw [← List.take_append_drop 4 rest1]
      rw [hm4]
    by_cases h9 : (rest1.drop 4).take 9 =
        ['_', 't', 'e', 's', 't', '.', 'g', 'o', ':']
    · rw [if_pos h9] at h
      simp only at h
      set r := (rest1.drop 4).drop 9 with hr
      by_cases hds : r.takeWhile Char.isDigit = []
      · rw [if_pos hds] at h
        exact absurd h (by simp)
      · rw [if_neg hds] at h
        injection h with h2
        refine ⟨['m', 'a', 'i', 'n', '_', 't', 'e', 's', 't', '.', 'g', 'o', ':'],
          r.dropWhile Char.isDigit, ?_, .inr rfl, ?_, ?_, ?_⟩
        · have hsplit9 : rest1.drop 4 =
              ['_', 't', 'e', 's', 't', '.', 'g', 'o', ':'] ++ r := by
            conv_lhs => rw [← List.take_append_drop 9 (rest1.drop 4)]
            rw [h9]
          have hrsplit : r = d ++ r.dropWhile Char.isDigit := by
            conv_lhs => rw [← @List.takeWhile_append_dropWhile _ Char.isDigit r]
            rw [h2]
          calc rest1 = ['m', 'a', 'i', 'n'] ++ rest1.drop 4 := hsplit4
            _ = ['m', 'a', 'i', 'n'] ++
                (['_', 't', 'e', 's', 't', '.', 'g', 'o', ':'] ++ r) := by
                rw [← hsplit9]
            _ = ['m', 'a', 'i', 'n'] ++
                (['_', 't', 'e', 's', 't', '.', 'g', 'o', ':'] ++
                  (d ++ r.dropWhile Char.isDigit)) := by rw [← hrsplit]
            _ = ['m', 'a', 'i', 'n', '_', 't', 'e', 's', 't', '.', 'g', 'o', ':'] ++
                d ++ r.dropWhile Char.isDigit := by simp
        · rw [← h2]
          exact hds
        · intro c hc
          rw [← h2] at hc
          have := List.mem_takeWhile_imp hc
          simpa using this
        · intro c hc
          exact head?_dropWhile_not _ _ hc
    · rw [if_neg h9] at h
      by_cases h4 : (rest1.drop 4).take 4 = ['.', 'g', 'o', ':']
      swap
      · rw [if_neg h4] at h
        exact absurd h (by simp)
      rw [if_pos h4] at h
      simp only at h
      set r := (rest1.drop 4).drop 4 with hr
      by_cases hds : r.takeWhile Char.isDigit = []
      · rw [if_pos hds] at h
        exact absurd h (by simp)
      · rw [if_neg hds] at h
        injection h with h2
        refine ⟨['m', 'a', 'i', 'n', '.', 'g', 'o', ':'],
          r.dropWhile Char.isDigit, ?_, .inl rfl, ?_, ?_, ?_⟩
        · have hsplit9 : rest1.drop 4 = ['.', 'g', 'o', ':'] ++ r := by
            conv_lhs => rw [← List.take_append_drop 4 (rest1.drop 4)]
            rw [h4]
          have hrsplit : r = d ++ r.dropWhile Char.isDigit := by
            conv_lhs => rw [← @List.takeWhile_append_dropWhile _ Char.isDigit r]
            rw [h2]
          calc rest1 = ['m', 'a', 'i', 'n'] ++ rest1.drop 4 := hsplit4
            _ = ['m', 'a', 'i', 'n'] ++ (['.', 'g', 'o', ':'] ++ r) := by
                rw [← hsplit9]
            _ = ['m', 'a', 'i', 'n'] ++ (['.', 'g', 'o', ':'] ++
                  (d ++ r.dropWhile Char.isDigit)) := by rw [← hrsplit]
            _ = ['m', 'a', 'i', 'n', '.', 'g', 'o', ':'] ++
                d ++ r.dropWhile Char.isDigit := by simp
        · rw [← h2]
          exact hds
        · intro c hc
          rw [← h2] at hc
          have := List.mem_takeWhile_imp hc
          simpa using this
        · intro c hc
          exact head?_dropWhile_not _ _ hc
  · rintro ⟨nm, rest, heq, hnm | hnm, hd, hdig, hmax⟩ <;> subst hnm <;> subst heq
    · rw [if_pos (by rfl)]
      have h9 : (List.drop 4
          (['m', 'a', 'i', 'n', '.', 'g', 'o', ':'] ++ d ++ rest)).take 9 ≠
          ['_', 't', 'e', 's', 't', '.', 'g', 'o', ':'] := by
        show (['.', 'g', 'o', ':'] ++ (d ++ rest)).take 9 ≠ _
        intro hc
        have : (['.', 'g', 'o', ':'] ++ (d ++ rest)).take 9 =
            '.' :: (['g', 'o', ':'] ++ (d ++ rest)).take 8 := rfl
        rw [this] at hc
        injection hc with hc1
        exact absurd hc1 (by decide)
      rw [if_neg h9, if_pos (by rfl)]
      simp only
      have hr : (List.drop 4
          (['m', 'a', 'i', 'n', '.', 'g', 'o', ':'] ++ d ++ rest)).drop 4 =
          d ++ rest := rfl
      rw [hr, takeWhile_append_all _ d rest hdig hmax, if_neg hd]
    · rw [if_pos (by rfl), if_pos (by rfl)]
      simp only
      have hr : (List.drop 4
          (['m', 'a', 'i', 'n', '_', 't', 'e', 's', 't', '.', 'g', 'o', ':'] ++
            d ++ rest)).drop 9 = d ++ rest := rfl
      rw [hr, takeWhile_append_all _ d rest hdig hmax, if_neg hd]

theorem matchBadLineCore_iff (rest1 d : List Char) :
    matchBadLineCore rest1 = some d ↔
      (∃ nm rest, rest1 = nm ++ d ++ rest ∧
        (nm = ['m', 'a', 'i', 'n', '.', 'g', 'o', ':'] ∨
         nm = ['m', 'a', 'i', 'n', '_', 't', 'e', 's', 't', '.', 'g', 'o', ':']) ∧
        d ≠ [] ∧ (∀ c ∈ d, c.isDigit = true) ∧
        (∀ c, rest.head? = some c → c.isDigit = false)) :=
  matchBadLine_inner_iff rest1 d

theorem matchBadLine_iff (line d : List Char) :
    matchBadLine line = some d ↔ badLineDecomp line d := by
  unfold matchBadLine badLineDecomp
  by_cases hpre : line.take 2 = ['.', '/']
  · rw [if_pos hpre, matchBadLineCore_iff]
    constructor
    · rintro ⟨nm, rest, heq, hnm, hd, hdig, hmax⟩
      refine ⟨['.', '/'], nm, rest, ?_, .inr rfl, hnm, hd, hdig, hmax⟩
      conv_lhs => rw [← List.take_append_drop 2 line]
      rw [hpre, heq]
      simp
    · rintro ⟨pre, nm, rest, heq, hpre2 | hpre2, hnm, hd, hdig, hmax⟩
      · exfalso
        subst hpre2
        rw [List.nil_append] at heq
        rcases hnm with h | h
        · subst h
          subst heq
          have h2 : List.take 2
              (['m', 'a', 'i', 'n', '.', 'g', 'o', ':'] ++ d ++ rest) =
              ['m', 'a'] := rfl
          rw [h2] at hpre
          exact absurd hpre (by decide)
        · subst h
          subst heq
          have h2 : List.take 2
              (['m', 'a', 'i', 'n', '_', 't', 'e', 's', 't', '.', 'g', 'o',
                ':'] ++ d ++ rest) = ['m', 'a'] := rfl
          rw [h2] at hpre
          exact absurd hpre (by decide)
      · subst hpre2
        subst heq
        exact ⟨nm, rest, rfl, hnm, hd, hdig, hmax⟩
  · rw [if_neg hpre, matchBadLineCore_iff]
    constructor
    · rintro ⟨nm, rest, heq, hnm, hd, hdig, hmax⟩
      exact ⟨[], nm, rest, by rw [List.nil_append]; exact heq, .inl rfl,
        hnm, hd, hdig, hmax⟩
    · rintro ⟨pre, nm, rest, heq, hpre2 | hpre2, hnm, hd, hdig, hmax⟩
      · subst hpre2
        rw [List.nil_append] at heq
        subst heq
        exact ⟨nm, rest, rfl, hnm, hd, hdig, hmax⟩
      · exfalso
        subst hpre2
        subst heq
        exact hpre rfl

/-- Claim C8 (corrected): a `MarkLines` frame is emitted iff some line
of the stderr buffer begins with optional `./`, then `main.go:` or
`main_test.go:`, then a digit run; the single frame carries the
JSON-encoded array of the digit runs in encounter order with
duplicates preserved — but each digit run is interpreted by
`strconv.Atoi`, whose value is clamped to `math.MaxInt64` for runs
exceeding the 64-bit `int` range. -/
theorem reportBadLinesSpec :
    (∀ line d : List Char, matchBadLine line = some d ↔ badLineDecomp line d) ∧
    (∀ ds : List Char, goAtoiDigits ds = min (digitsVal ds : Int) (2 ^ 63 - 1)) ∧
    (∀ b : List Char,
      reportBadLines b =
        if (b.splitOn '\n').filterMap matchBadLine = [] then none
        else some (jsonIntList
          (((b.splitOn '\n').filterMap matchBadLine).map goAtoiDigits))) := by
  refine ⟨matchBadLine_iff, ?_, ?_⟩
  · intro ds
    unfold goAtoiDigits
    split
    · rw [min_eq_left (by omega)]
    · rw [min_eq_right (by omega)]
  · intro b
    unfold reportBadLines
    by_cases h : (b.splitOn '\n').filterMap matchBadLine = []
    · rw [if_pos h, h]
      simp
    · rw [if_neg h, if_pos]
      rw [List.length_map]
      exact List.length_pos.mpr h

/-- Claim C8 counterexample: a 20-digit run is reported as
`math.MaxInt64` rather than as its numeric value. -/
theorem reportBadLinesOverflow :
    reportBadLines ("main.go:18446744073709551616").data =
        some "[9223372036854775807]" ∧
      digitsVal ("18446744073709551616").data = 18446744073709551616 ∧
      (18446744073709551616 : Int) ≠ 9223372036854775807 := by
  refine ⟨rfl, rfl, by decide⟩

/-! ## Auth token parsing (claim C9) -/

/-- Decode one hex digit. -/
def hexVal (c : Char) : Option Nat :=
  if '0' ≤ c ∧ c ≤ '9' then some (c.toNat - 48)
  else if 'a' ≤ c ∧ c ≤ 'f' then some (c.toNat - 87)
  else if 'A' ≤ c ∧ c ≤ 'F' then some (c.toNat - 55)
  else none

/-- Go `hex.DecodeString`: decode byte pairs until an invalid digit or
a trailing odd digit; return the bytes decoded so far and whether
decoding completed without error. -/
def hexDecode : List Char → List Nat × Bool
  | [] => ([], true)
  | [_] => ([], false)
  | c1 :: c2 :: rest =>
    match hexVal c1, hexVal c2 with
    | some h, some l =>
      let p := hexDecode rest
      ((16 * h + l) :: p.1, p.2)
    | _, _ => ([], false)

/-- Go slice expression `b[i:j]` with bounds checking; `none` models a
panic. -/
def goSlice (l : List Nat) (i j : Nat) : Option (List Nat) :=
  if i ≤ j ∧ j ≤ l.length then some ((l.drop i).take (j - i)) else none

/-- `parseAuthToken`.  The keyed HMAC-SHA256 (`mac`) and
`time.Time.UnmarshalBinary` (`unmarshal`, `none` on error) are
external collaborators abstracted as function parameters; `hmac.Equal`
is byte-slice equality.  `.error ()` marks a panic of the Go code. -/
def parseAuthToken (mac : List Nat → List Nat)
    (unmarshal : List Nat → Option GoTime) (s : List Char) :
    Except Unit GoTime :=
  let b := (hexDecode s).1
  let ok := (hexDecode s).2
  if b.length = 0 ∨ b.headD 0 > b.length - 1 ∨ ok = false then .ok goZeroTime
  else
    match goSlice b 1 (1 + b.headD 0), goSlice b (1 + b.headD 0) b.length with
    | some bt, some bmac =>
      let t := unmarshal bt
      if mac bt ≠ bmac ∨ t = none then .ok goZeroTime
      else .ok (t.getD goZeroTime)
    | _, _ => .error ()

/-- Claim C9 (confirmed): `parseAuthToken` is total and fails closed:
for every key and input string it returns a time without panicking,
and a non-zero time comes only from an input that hex-decodes without
error into a length byte, a payload of that length, and a trailing MAC
that equals the recomputed HMAC of the payload, with the payload
unmarshalling to that time. -/
theorem parseAuthTokenTotalFailClosed (mac : List Nat → List Nat)
    (unmarshal : List Nat → Option GoTime) (s : List Char) :
    (∃ t, parseAuthToken mac unmarshal s = .ok t) ∧
    (∀ t, parseAuthToken mac unmarshal s = .ok t → ¬ t.isZero = true →
      ∃ bt bmac2, (hexDecode s).2 = true ∧
        (hexDecode s).1 = bt.length :: (bt ++ bmac2) ∧
        mac bt = bmac2 ∧ unmarshal bt = some t) := by
  unfold parseAuthToken
  by_cases hguard : (hexDecode s).1.length = 0 ∨
      (hexDecode s).1.headD 0 > (hexDecode s).1.length - 1 ∨
      (hexDecode s).2 = false
  · rw [if_pos hguard]
    refine ⟨⟨goZeroTime, rfl⟩, ?_⟩
    intro t ht hz
    injection ht with ht2
    rw [← ht2] at hz
    exact absurd (by decide) hz
  · rw [if_neg hguard]
    push_neg at hguard
    obtain ⟨hlen, hhead, hok⟩ := hguard
    have hoktrue : (hexDecode s).2 = true := by
      rcases h : (hexDecode s).2
      · exact absurd h hok
      · rfl
    rcases hb : (hexDecode s).1 with _ | ⟨b0, rest⟩
    · rw [hb] at hlen
      simp at hlen
    · rw [hb] at hhead
      simp only [List.headD_cons, List.length_cons] at hhead
      have hb0 : b0 ≤ rest.length := by omega
      have hs1 : goSlice (b0 :: rest) 1 (1 + (b0 :: rest).headD 0) =
          some (rest.take b0) := by
        unfold goSlice
        rw [if_pos (by simp; omega)]
        simp
      have hs2 : goSlice (b0 :: rest) (1 + (b0 :: rest).headD 0)
          (b0 :: rest).length = some (rest.drop b0) := by
        unfold goSlice
        rw [if_pos (by simp; omega)]
        congr 1
        simp only [List.headD_cons, List.length_cons]
        have hdrop : (b0 :: rest).drop (1 + b0) = rest.drop b0 := by
          have h5 : 1 + b0 = b0 + 1 := by omega
          rw [h5]
          rfl
        rw [hdrop]
        apply List.take_of_length_le
        rw [List.length_drop]
        omega
      rw [hs1, hs2]
      dsimp only
      by_cases hmac : mac (rest.take b0) ≠ rest.drop b0 ∨
          unmarshal (rest.take b0) = none
      · rw [if_pos hmac]
        refine ⟨⟨goZeroTime, rfl⟩, ?_⟩
        intro t ht hz
        injection ht with ht2
        rw [← ht2] at hz
        exact absurd (by decide) hz
      · rw [if_neg hmac]
        push_neg at hmac
        obtain ⟨hmaceq, hunm⟩ := hmac
        rcases ht0 : unmarshal (rest.take b0) with _ | t0
        · exact absurd ht0 hunm
        · refine ⟨⟨t0, rfl⟩, ?_⟩
          intro t ht hz
          simp only [Option.getD_some] at ht
          injection ht with ht2
          refine ⟨rest.take b0, rest.drop b0, hoktrue, ?_,
            hmaceq, by rw [ht0, ht2]⟩
          have h4 : (rest.take b0).length = b0 := by
            rw [List.length_take]
            omega
          rw [h4, List.take_append_drop]

theorem parseAuthTokenTotalFailClosed_witness :
    parseAuthToken (fun _ => [171]) (fun _ => some ⟨5, 0⟩)
        ("0107ab").data = .ok ⟨5, 0⟩ ∧
      ¬ (⟨5, 0⟩ : GoTime).isZero = true ∧
      ∃ bt bmac2,
        (hexDecode ("0107ab").data).2 = true ∧
        (hexDecode ("0107ab").data).1 = bt.length :: (bt ++ bmac2) ∧
        (fun (_ : List Nat) => [171]) bt = bmac2 ∧
        (fun (_ : List Nat) => some (⟨5, 0⟩ : GoTime)) bt = some ⟨5, 0⟩ :=
  ⟨by rfl, by decide,
    (parseAuthTokenTotalFailClosed (fun _ => [171]) (fun _ => some ⟨5, 0⟩)
      ("0107ab").data).2 ⟨5, 0⟩ (by rfl) (by decide)⟩

/-!
### C4: executor frame bracketing (`Start`, `handleFormat`, `handleRun`)

The executor sends `(action, data)` frames to the client through
`sendMsg`.  We model one accepted action's frame sequence: `Start`
emits `statusStarted` and spawns `handleFormat`/`handleRun`, each of
which registers `defer sendMsg(statusStopped, "")` at entry, so its
trace is its body's frames followed by the single deferred
`statusStopped`.  External effects (file system, subprocesses, the Go
parser, `extractArgs`, `%q` formatting, blob ids) are environment
parameters; process output arrives through `ex.stdout`/`ex.stderr` as
`appendStdout`/`appendStderr` frames.  Cancellation by `Stop` surfaces
as a failed `cmd.Run` (context kill) or the `ctx.Done` check at the
head of the compile loop, both covered by the environment.
-/

/-- The action constants of the executor protocol. -/
def actionFormat : String := "Format"

def actionRun : String := "Run"

def clearOutput : String := "ClearOutput"

def markLines : String := "MarkLines"

def appendStdout : String := "AppendStdout"

def appendStderr : String := "AppendStderr"

def reportProfile : String := "ReportProfile"

def statusStarted : String := "StatusStarted"

def statusUpdate : String := "StatusUpdate"

def statusStopped : String := "StatusStopped"

def magicComment : String := "//playground:"

def tagVersions : String := "goversions"

def tagBuildArgs : String := "buildargs"

def tagExecArgs : String := "execargs"

def tagProfile : String := "pprof"

/-- One `sendMsg(action, data)` frame. -/
structure Frame where
  act : String
  data : String
  deriving DecidableEq, Repr

/-- Frames produced by a subprocess writing to `ex.stdout` /
`ex.stderr` (the `writerFunc` wrappers around `sendMsg`): each chunk
is tagged with `true` for stdout. -/
def outFrames (chunks : List (Bool × String)) : List Frame :=
  chunks.map (fun c => ⟨if c.1 then appendStdout else appendStderr, c.2⟩)

/-- `runCommand`: the spawned command's output frames, then on
`cmd.Run` error a `statusUpdate` frame and `false`. -/
def runCommand (out : List (Bool × String)) (err : Option String) :
    List Frame × Bool :=
  (outFrames out ++
    (match err with
     | some e => [⟨statusUpdate, "Unexpected error: " ++ e ++ "\n"⟩]
     | none => []),
   err.isNone)

/-- `writeFile` / `readFile` failure frame (`fmt.Sprintf("Unexpected
error: %v\n", err)`). -/
def fsErrFrames : Option String → List Frame
  | some e => [⟨statusUpdate, "Unexpected error: " ++ e ++ "\n"⟩]
  | none => []

/-- The `MarkLines` frame of `reportBadLines`, when some line matched. -/
def reportBadLinesFrames (b : List Char) : List Frame :=
  match reportBadLines b with
  | some s => [⟨markLines, s⟩]
  | none => []

/-- Environment of `handleFormat`: outcomes of `writeFile "main.go"`,
the `gofmt` run (`runCommand`), its captured stderr, and
`readFile "main.go"`. -/
structure fmtEnv where
  writeErr : Option String
  fmtOut : List (Bool × String)
  fmtErr : Option String
  fmtStderr : List Char
  readRes : Except String String

/-- Body of `handleFormat` (everything before the deferred
`statusStopped`). -/
def handleFormatBody (env : fmtEnv) : List Frame :=
  [⟨clearOutput, ""⟩, ⟨statusUpdate, "Formatting source...\n"⟩] ++
  match env.writeErr with
  | some e => fsErrFrames (some e)
  | none =>
    match runCommand env.fmtOut env.fmtErr with
    | (fs, false) => fs ++ reportBadLinesFrames env.fmtStderr
    | (fs, true) =>
      fs ++
      match env.readRes with
      | .error e => fsErrFrames (some e)
      | .ok code => [⟨actionFormat, code⟩, ⟨clearOutput, ""⟩,
          ⟨statusUpdate, "Source formatted.\n"⟩]

/-- `handleFormat`: its body then the deferred `statusStopped`. -/
def handleFormat (env : fmtEnv) : List Frame :=
  handleFormatBody env ++ [⟨statusStopped, ""⟩]

/-- Outcomes of the two `parser.ParseFile` calls in `parseFile`: the
package-clause parse (error flag, package name, comment texts) and the
full parse (error flag, function declarations). -/
structure parsedFile where
  clauseErr : Bool
  pkgName : String
  comments : List String
  declsErr : Bool
  decls : List FuncDecl

/-- The named results of `parseFile` on success. -/
structure parseRes where
  hasMain : Bool
  gcs : List String
  buildArgs : List String
  execArgs : List String
  profArgs : List String

/-- The magic-comment loop of `parseFile`: each comment is split by
`extractArgs` (abstracted as `ex`; on success it never yields an empty
list, so the `some []` branch is unreachable) and the tag assigns the
corresponding field, later comments overriding earlier ones; a parse
failure or unknown tag sends one `statusUpdate` (with `%q` formatting
abstracted as `q`) and aborts. -/
def processMagics (ex : String → Option (List String)) (q : String → String) :
    List String → parseRes → List Frame × Option parseRes
  | [], r => ([], some r)
  | c :: cs, r =>
    match ex c with
    | none => ([⟨statusUpdate,
        "Unable to parse magic comment: " ++ q (magicComment ++ c)⟩], none)
    | some [] => ([], none)
    | some (a0 :: rest) =>
      if a0 = tagVersions then processMagics ex q cs { r with gcs := rest }
      else if a0 = tagBuildArgs then
        processMagics ex q cs { r with buildArgs := rest }
      else if a0 = tagExecArgs then
        processMagics ex q cs { r with execArgs := rest }
      else if a0 = tagProfile then
        processMagics ex q cs { r with profArgs := rest }
      else ([⟨statusUpdate,
        "Unknown magic comment: " ++ q (magicComment ++ c)⟩], none)

/-- `parseFile`: both parse errors are best-effort successes with zero
results; a non-`main` package, `hasMain == hasTests`, a bad magic
comment, or profiling without tests sends one `statusUpdate` and
reports failure. -/
def parseFile (p : parsedFile) (ex : String → Option (List String))
    (q : String → String) : List Frame × Option parseRes :=
  if p.clauseErr then ([], some ⟨false, [], [], [], []⟩)
  else if p.pkgName ≠ "main" then
    ([⟨statusUpdate, "Program must be in 'package main'.\n"⟩], none)
  else
    let magics := (p.comments.filter (goHasPrefix magicComment)).map
      (fun c => c.drop magicComment.length)
    if p.declsErr then ([], some ⟨false, [], [], [], []⟩)
    else
      let hm := parseFileFuncs p.decls
      if hm.1 = hm.2 then
        ([⟨statusUpdate,
          "Program must have either a main function or a set of test functions.\n"⟩],
         none)
      else
        match processMagics ex q magics ⟨hm.1, [], [], [], []⟩ with
        | (fs, none) => (fs, none)
        | (fs, some r) =>
          if !hm.2 && 0 < r.profArgs.length then
            (fs ++ [⟨statusUpdate, "Profiling is only available on test suites"⟩],
             none)
          else (fs, some r)

/-- Outcome of one `runProf` call: the pprof `cmd.Run` failed, the
output file was over `1<<24` bytes, a non-empty report was stored
(with the blob id for the `reportProfile` JSON), or the file was
empty. -/
inductive profRes where
  | cmdErr (e : String)
  | tooLarge (n : Nat)
  | report (id : String)
  | empty

/-- Frames of one `runProf output ...` call. -/
def runProfFrames (output : String) : profRes → List Frame
  | .cmdErr e => [⟨statusUpdate,
      "\tDropped report: " ++ output ++ " (unexpected error: " ++ e ++ ")\n"⟩]
  | .tooLarge n => [⟨statusUpdate,
      "\tDropped report: " ++ output ++ " (file too large: " ++
        toString n ++ " bytes)\n"⟩]
  | .report id => [⟨reportProfile,
      "\x7b\"id\":\"" ++ id ++ "\",\"name\":\"" ++ output ++ "\"\x7d"⟩]
  | .empty => []

/-- The output files of the `runProf` calls made for each profiling
argument, in call order. -/
def profCalls : List String → List String
  | [] => []
  | a :: rest =>
    (if a = "cpu" then ["cpu_graph.svg", "cpu_list.html"]
     else if a = "mem" then
       ["mem_objects_graph.svg", "mem_objects_list.html",
        "mem_space_graph.svg", "mem_space_list.html"]
     else []) ++ profCalls rest

/-- The sequence of `runProf` calls, the `i`-th outcome drawn from the
environment. -/
def runProfSeq (res : Nat → profRes) : List String → Nat → List Frame
  | [], _ => []
  | o :: os, i => runProfFrames o (res i) ++ runProfSeq res os (i + 1)

/-- Environment of one `processProfiles` call: outcomes of
`writeFile "prof_copy.go"`, of the `prof_copy` build (`runCommand`),
and of each `runProf` call. -/
structure profEnv where
  writeErr : Option String
  copyOut : List (Bool × String)
  copyErr : Option String
  profRes : Nat → profRes

/-- `processProfiles`: the opening `statusUpdate`, the body, and the
deferred "Report generation done." sent on every exit path. -/
def processProfiles (env : profEnv) (profArgs : List String) : List Frame :=
  [⟨statusUpdate, "Generating performance reports...\n"⟩] ++
  (match env.writeErr with
   | some e => fsErrFrames (some e)
   | none =>
     match runCommand env.copyOut env.copyErr with
     | (fs, false) => fs
     | (fs, true) => fs ++ runProfSeq env.profRes (profCalls profArgs) 0) ++
  [⟨statusUpdate, "Report generation done.\n"⟩]

/-- The Go-version resolution loop: each listed version is looked up
in `ex.gcs`; the first unknown one sends a `statusUpdate` and aborts. -/
def gcsResolve (m : String → Option String) :
    List String → List Frame × Option (List String)
  | [] => ([], some [])
  | g :: gs =>
    match m g with
    | some bin =>
      match gcsResolve m gs with
      | (fs, some bs) => (fs, some (bin :: bs))
      | (fs, none) => (fs, none)
    | none => ([⟨statusUpdate, "Unknown Go version: " ++ g ++ "\n"⟩], none)

/-- The profiling-argument loop appending `-test.cpuprofile` /
`-test.memprofile` flags; an unknown argument sends a `statusUpdate`
and aborts. -/
def profLoop : List String → List String → List Frame × Option (List String)
  | [], e => ([], some e)
  | a :: rest, e =>
    if a = "cpu" then profLoop rest (e ++ ["-test.cpuprofile=cpu.prof"])
    else if a = "mem" then profLoop rest (e ++ ["-test.memprofile=mem.prof"])
    else ([⟨statusUpdate, "Unknown profiling argument: " ++ a ++ "\n"⟩], none)

/-- Go `strings.Join(l, " ")`. -/
def goJoin (l : List String) : String := String.intercalate " " l

/-- Environment of `handleRun`: outcomes of `writeFile temp.go`, the
two parses, `extractArgs` and `%q` formatting, the `ex.gcs` map and
default `ex.gc` binary, `os.Rename`, and per compile-loop iteration
the `ctx.Done` check, the build and exec `runCommand`s (output chunks,
error, captured build stderr), and the `processProfiles` environment. -/
structure runEnv where
  writeErr : Option String
  parse : parsedFile
  extract : String → Option (List String)
  quoteStr : String → String
  gcsMap : String → Option String
  gcDefault : String
  renameErr : Option String
  cancelled : Nat → Bool
  buildOut : Nat → List (Bool × String)
  buildErr : Nat → Option String
  buildStderr : Nat → List Char
  execOut : Nat → List (Bool × String)
  execErr : Nat → Option String
  prof : Nat → profEnv

/-- The build-and-execute loop over the resolved Go versions, with the
`ctx.Done` cancellation check at the head of each iteration; a failed
build reports bad lines and continues, a failed execution sends a
blank `statusUpdate` and continues. -/
def runLoop (env : runEnv) (verbose : Bool)
    (buildArgs2 execArgs2 profArgs : List String) :
    List String → Nat → List Frame
  | [], _ => []
  | gc :: rest, i =>
    if env.cancelled i then []
    else
      (if verbose then
         [⟨statusUpdate,
           "Compiling program... (command: " ++ goJoin (gc :: buildArgs2) ++ ")\n"⟩]
       else [⟨statusUpdate, "Compiling program...\n"⟩]) ++
      match runCommand (env.buildOut i) (env.buildErr i) with
      | (fs, false) =>
        fs ++ reportBadLinesFrames (env.buildStderr i) ++
          runLoop env verbose buildArgs2 execArgs2 profArgs rest (i + 1)
      | (fs, true) =>
        fs ++
        (if verbose then
           [⟨statusUpdate,
             "Starting program... (command: " ++ goJoin execArgs2 ++ ")\n"⟩]
         else [⟨clearOutput, ""⟩]) ++
        match runCommand (env.execOut i) (env.execErr i) with
        | (fs2, false) =>
          fs2 ++ [⟨statusUpdate, "\n"⟩] ++
            runLoop env verbose buildArgs2 execArgs2 profArgs rest (i + 1)
        | (fs2, true) =>
          fs2 ++ [⟨statusUpdate, "Program exited.\n"⟩] ++
          (if 0 < profArgs.length then processProfiles (env.prof i) profArgs
           else []) ++
          [⟨statusUpdate, "\n"⟩] ++
          runLoop env verbose buildArgs2 execArgs2 profArgs rest (i + 1)

/-- The tail of `handleRun` after the Go versions are resolved:
profiling execution arguments, final build/exec argument adjustment,
`os.Rename`, and the build-and-execute loop. -/
def runExecPhase (env : runEnv) (r : parseRes) (verbose : Bool)
    (gcs2 : List String) : List Frame :=
  let pe : List Frame × Option (List String) :=
    if 0 < r.profArgs.length then
      profLoop r.profArgs
        (if r.execArgs.length = 0 then
          ["-test.v", "-test.run=-", "-test.bench=."]
         else r.execArgs)
    else ([], some r.execArgs)
  pe.1 ++
  match pe.2 with
  | none => []
  | some execArgs1 =>
    let buildArgs2 :=
      if r.hasMain then ["build"] ++ r.buildArgs ++ ["main.go"]
      else ["test", "-c"] ++ r.buildArgs ++ ["main_test.go"]
    let execArgs2 :=
      if r.hasMain then ["./main"] ++ execArgs1
      else if execArgs1.length = 0 then
        ["./main.test", "-test.v", "-test.run=.", "-test.bench=."]
      else ["./main.test"] ++ execArgs1
    match env.renameErr with
    | some e => fsErrFrames (some e)
    | none => runLoop env verbose buildArgs2 execArgs2 r.profArgs gcs2 0

/-- Body of `handleRun` (everything between the deferred
`statusStopped` and the end; the directory cleanup and `deleteBlobs`
send no frames). -/
def handleRunBody (env : runEnv) : List Frame :=
  [⟨clearOutput, ""⟩] ++
  match env.writeErr with
  | some e => fsErrFrames (some e)
  | none =>
    match parseFile env.parse env.extract env.quoteStr with
    | (fs, none) => fs
    | (fs, some r) =>
      fs ++
      let verbose := 0 < r.gcs.length + r.buildArgs.length +
        r.execArgs.length + r.profArgs.length
      let gr : List Frame × Option (List String) :=
        if r.gcs.length = 0 then ([], some [env.gcDefault])
        else
          ((if 0 < r.profArgs.length then
              [⟨statusUpdate,
                "WARNING: Support for profiling earlier Go versions is flaky!\n\n"⟩]
            else []) ++ (gcsResolve env.gcsMap r.gcs).1,
           (gcsResolve env.gcsMap r.gcs).2)
      gr.1 ++
      match gr.2 with
      | none => []
      | some gcs2 => runExecPhase env r verbose gcs2

/-- `handleRun`: its body then the deferred `statusStopped`. -/
def handleRun (env : runEnv) : List Frame :=
  handleRunBody env ++ [⟨statusStopped, ""⟩]

/-- `Start` on an executor: a closed executor or an unknown action gets
a single `statusUpdate`; a `Format`/`Run` action gets `statusStarted`
followed by the handler's frames. -/
def executorStart (closed : Bool) (action : String)
    (fenv : fmtEnv) (renv : runEnv) : List Frame :=
  if closed then [⟨statusUpdate, "Unexpected error: server is shutdown\n"⟩]
  else if action = actionFormat then ⟨statusStarted, ""⟩ :: handleFormat fenv
  else if action = actionRun then ⟨statusStarted, ""⟩ :: handleRun renv
  else [⟨statusUpdate, "Unknown action: " ++ action ++ "\n"⟩]

/-- A frame whose action is neither `statusStarted` nor
`statusStopped`. -/
def frameOk (f : Frame) : Prop :=
  f.act ≠ statusStarted ∧ f.act ≠ statusStopped

theorem outFrames_ok (l : List (Bool × String)) :
    ∀ f ∈ outFrames l, frameOk f := by
  intro f hf
  simp only [outFrames, List.mem_map] at hf
  obtain ⟨c, _, rfl⟩ := hf
  rcases c with ⟨b, s⟩
  cases b
  · exact ⟨(by decide : appendStderr ≠ statusStarted),
      (by decide : appendStderr ≠ statusStopped)⟩
  · exact ⟨(by decide : appendStdout ≠ statusStarted),
      (by decide : appendStdout ≠ statusStopped)⟩

theorem frameOk_upd (d : String) : frameOk ⟨statusUpdate, d⟩ :=
  ⟨(by decide : statusUpdate ≠ statusStarted),
   (by decide : statusUpdate ≠ statusStopped)⟩

theorem runCommand_ok (out : List (Bool × String)) (err : Option String) :
    ∀ f ∈ (runCommand out err).1, frameOk f := by
  intro f hf
  simp only [runCommand, List.mem_append] at hf
  rcases hf with hf | hf
  · exact outFrames_ok out f hf
  · rcases err with _ | e
    · simp at hf
    · simp only [List.mem_singleton] at hf
      rw [hf]
      exact frameOk_upd _

theorem fsErrFrames_ok (e : Option String) :
    ∀ f ∈ fsErrFrames e, frameOk f := by
  intro f hf
  rcases e with _ | e
  · simp [fsErrFrames] at hf
  · simp only [fsErrFrames, List.mem_singleton] at hf
    rw [hf]
    exact frameOk_upd _

theorem reportBadLinesFrames_ok (b : List Char) :
    ∀ f ∈ reportBadLinesFrames b, frameOk f := by
  intro f hf
  unfold reportBadLinesFrames at hf
  rcases hr : reportBadLines b with _ | s <;> rw [hr] at hf
  · simp at hf
  · simp only [List.mem_singleton] at hf
    rw [hf]
    exact ⟨(by decide : markLines ≠ statusStarted),
      (by decide : markLines ≠ statusStopped)⟩

theorem frameOk_clear : frameOk ⟨clearOutput, ""⟩ :=
  ⟨(by decide : clearOutput ≠ statusStarted),
   (by decide : clearOutput ≠ statusStopped)⟩

theorem handleFormatBody_ok (env : fmtEnv) :
    ∀ f ∈ handleFormatBody env, frameOk f := by
  have hrcok := runCommand_ok env.fmtOut env.fmtErr
  intro f hf
  unfold handleFormatBody at hf
  rw [List.mem_append] at hf
  rcases hf with hf | hf
  · rw [List.mem_cons] at hf
    rcases hf with rfl | hf
    · exact frameOk_clear
    · rw [List.mem_singleton] at hf
      rw [hf]
      exact frameOk_upd _
  · rcases hw : env.writeErr with _ | e <;> rw [hw] at hf
    · rcases hrc : runCommand env.fmtOut env.fmtErr with ⟨fs, b⟩
      rw [hrc] at hf hrcok
      cases b <;> dsimp only at hf hrcok <;> rw [List.mem_append] at hf
      · rcases hf with hf | hf
        · exact hrcok f hf
        · exact reportBadLinesFrames_ok env.fmtStderr f hf
      · rcases hf with hf | hf
        · exact hrcok f hf
        · rcases hr : env.readRes with e | code <;> rw [hr] at hf
          · exact fsErrFrames_ok (some e) f hf
          · rw [List.mem_cons] at hf
            rcases hf with rfl | hf
            · exact ⟨(by decide : actionFormat ≠ statusStarted),
                (by decide : actionFormat ≠ statusStopped)⟩
            · rw [List.mem_cons] at hf
              rcases hf with rfl | hf
              · exact frameOk_clear
              · rw [List.mem_singleton] at hf
                rw [hf]
                exact frameOk_upd _
    · exact fsErrFrames_ok (some e) f hf

theorem processMagics_ok (ex : String → Option (List String))
    (q : String → String) :
    ∀ (cs : List String) (r : parseRes) (f : Frame),
      f ∈ (processMagics ex q cs r).1 → frameOk f := by
  intro cs
  induction cs with
  | nil =>
    intro r f hf
    simp [processMagics] at hf
  | cons c cs ih =>
    intro r f hf
    unfold processMagics at hf
    rcases he : ex c with _ | args <;> rw [he] at hf
    · dsimp only at hf
      rw [List.mem_singleton] at hf
      rw [hf]
      exact frameOk_upd _
    · rcases args with _ | ⟨a0, rest⟩
      · dsimp only at hf
        simp at hf
      · dsimp only at hf
        by_cases h1 : a0 = tagVersions
        · rw [if_pos h1] at hf
          exact ih _ f hf
        · rw [if_neg h1] at hf
          by_cases h2 : a0 = tagBuildArgs
          · rw [if_pos h2] at hf
            exact ih _ f hf
          · rw [if_neg h2] at hf
            by_cases h3 : a0 = tagExecArgs
            · rw [if_pos h3] at hf
              exact ih _ f hf
            · rw [if_neg h3] at hf
              by_cases h4 : a0 = tagProfile
              · rw [if_pos h4] at hf
                exact ih _ f hf
              · rw [if_neg h4] at hf
                rw [List.mem_singleton] at hf
                rw [hf]
                exact frameOk_upd _

theorem parseFile_ok (p : parsedFile) (ex : String → Option (List String))
    (q : String → String) : ∀ f ∈ (parseFile p ex q).1, frameOk f := by
  intro f hf
  unfold parseFile at hf
  split at hf
  · simp at hf
  · split at hf
    · dsimp only at hf
      rw [List.mem_singleton] at hf
      rw [hf]
      exact frameOk_upd _
    · split at hf
      · simp at hf
      · dsimp only at hf
        split at hf
        · rw [List.mem_singleton] at hf
          rw [hf]
          exact frameOk_upd _
        · rcases hm : processMagics ex q
              ((p.comments.filter (goHasPrefix magicComment)).map
                (fun c => c.drop magicComment.length))
              ⟨(parseFileFuncs p.decls).1, [], [], [], []⟩ with ⟨fs, ro⟩
          have hmok := processMagics_ok ex q
            ((p.comments.filter (goHasPrefix magicComment)).map
              (fun c => c.drop magicComment.length))
            ⟨(parseFileFuncs p.decls).1, [], [], [], []⟩ f
          rw [hm] at hf hmok
          rcases ro with _ | r <;> dsimp only at hf hmok
          · exact hmok hf
          · split at hf
            · rw [List.mem_append] at hf
              rcases hf with hf | hf
              · exact hmok hf
              · rw [List.mem_singleton] at hf
                rw [hf]
                exact frameOk_upd _
            · exact hmok hf

theorem runProfFrames_ok (output : String) (r : profRes) :
    ∀ f ∈ runProfFrames output r, frameOk f := by
  intro f hf
  rcases r with e | n | id | _ <;>
    simp only [runProfFrames, List.mem_singleton, List.not_mem_nil] at hf
  · rw [hf]
    exact frameOk_upd _
  · rw [hf]
    exact frameOk_upd _
  · rw [hf]
    exact ⟨(by decide : reportProfile ≠ statusStarted),
      (by decide : reportProfile ≠ statusStopped)⟩

theorem runProfSeq_ok (res : Nat → profRes) :
    ∀ (os : List String) (i : Nat) (f : Frame),
      f ∈ runProfSeq res os i → frameOk f := by
  intro os
  induction os with
  | nil =>
    intro i f hf
    simp [runProfSeq] at hf
  | cons o os ih =>
    intro i f hf
    unfold runProfSeq at hf
    rw [List.mem_append] at hf
    rcases hf with hf | hf
    · exact runProfFrames_ok o (res i) f hf
    · exact ih (i + 1) f hf

theorem processProfiles_ok (env : profEnv) (profArgs : List String) :
    ∀ f ∈ processProfiles env profArgs, frameOk f := by
  have hrcok := runCommand_ok env.copyOut env.copyErr
  intro f hf
  unfold processProfiles at hf
  rw [List.mem_append, List.mem_append] at hf
  rcases hf with (hf | hf) | hf
  · rw [List.mem_singleton] at hf
    rw [hf]
    exact frameOk_upd _
  · rcases hw : env.writeErr with _ | e <;> rw [hw] at hf
    · rcases hrc : runCommand env.copyOut env.copyErr with ⟨fs, b⟩
      rw [hrc] at hf hrcok
      cases b <;> dsimp only at hf hrcok
      · exact hrcok f hf
      · rw [List.mem_append] at hf
        rcases hf with hf | hf
        · exact hrcok f hf
        · exact runProfSeq_ok env.profRes (profCalls profArgs) 0 f hf
    · exact fsErrFrames_ok (some e) f hf
  · rw [List.mem_singleton] at hf
    rw [hf]
    exact frameOk_upd _

theorem gcsResolve_ok (m : String → Option String) :
    ∀ (gs : List String) (f : Frame), f ∈ (gcsResolve m gs).1 → frameOk f := by
  intro gs
  induction gs with
  | nil =>
    intro f hf
    simp [gcsResolve] at hf
  | cons g gs ih =>
    intro f hf
    unfold gcsResolve at hf
    rcases hm : m g with _ | bin <;> rw [hm] at hf
    · dsimp only at hf
      rw [List.mem_singleton] at hf
      rw [hf]
      exact frameOk_upd _
    · rcases hr : gcsResolve m gs with ⟨fs, ro⟩
      rw [hr] at hf
      have := ih f
      rw [hr] at this
      rcases ro with _ | bs <;> dsimp only at hf this <;> exact this hf

theorem profLoop_ok :
    ∀ (args e : List String) (f : Frame), f ∈ (profLoop args e).1 → frameOk f := by
  intro args
  induction args with
  | nil =>
    intro e f hf
    simp [profLoop] at hf
  | cons a rest ih =>
    intro e f hf
    unfold profLoop at hf
    by_cases h1 : a = "cpu"
    · rw [if_pos h1] at hf
      exact ih _ f hf
    · rw [if_neg h1] at hf
      by_cases h2 : a = "mem"
      · rw [if_pos h2] at hf
        exact ih _ f hf
      · rw [if_neg h2] at hf
        rw [List.mem_singleton] at hf
        rw [hf]
        exact frameOk_upd _

theorem runLoop_ok (env : runEnv) (verbose : Bool)
    (buildArgs2 execArgs2 profArgs : List String) :
    ∀ (gcs : List String) (i : Nat) (f : Frame),
      f ∈ runLoop env verbose buildArgs2 execArgs2 profArgs gcs i →
        frameOk f := by
  intro gcs
  induction gcs with
  | nil =>
    intro i f hf
    simp [runLoop] at hf
  | cons gc rest ih =>
    intro i f hf
    have hbok := runCommand_ok (env.buildOut i) (env.buildErr i)
    have heok := runCommand_ok (env.execOut i) (env.execErr i)
    unfold runLoop at hf
    by_cases hc : env.cancelled i = true
    · rw [if_pos hc] at hf
      simp at hf
    · rw [if_neg hc] at hf
      rw [List.mem_append] at hf
      rcases hf with hf | hf
      · split at hf <;> rw [List.mem_singleton] at hf <;> rw [hf] <;>
          exact frameOk_upd _
      · rcases hb : runCommand (env.buildOut i) (env.buildErr i) with ⟨fs, b⟩
        rw [hb] at hf hbok
        cases b <;> dsimp only at hf hbok
        · rw [List.mem_append, List.mem_append] at hf
          rcases hf with (hf | hf) | hf
          · exact hbok f hf
          · exact reportBadLinesFrames_ok (env.buildStderr i) f hf
          · exact ih (i + 1) f hf
        · rw [List.mem_append, List.mem_append] at hf
          rcases hf with (hf | hf) | hf
          · exact hbok f hf
          · split at hf <;> rw [List.mem_singleton] at hf <;> rw [hf]
            · exact frameOk_upd _
            · exact frameOk_clear
          · rcases he : runCommand (env.execOut i) (env.execErr i) with ⟨fs2, b2⟩
            rw [he] at hf heok
            cases b2 <;> dsimp only at hf heok
            · rw [List.mem_append, List.mem_append] at hf
              rcases hf with (hf | hf) | hf
              · exact heok f hf
              · rw [List.mem_singleton] at hf
                rw [hf]
                exact frameOk_upd _
              · exact ih (i + 1) f hf
            · rw [List.mem_append, List.mem_append, List.mem_append,
                List.mem_append] at hf
              rcases hf with (((hf | hf) | hf) | hf) | hf
              · exact heok f hf
              · rw [List.mem_singleton] at hf
                rw [hf]
                exact frameOk_upd _
              · by_cases hp : 0 < profArgs.length
                · rw [if_pos hp] at hf
                  exact processProfiles_ok (env.prof i) profArgs f hf
                · rw [if_neg hp] at hf
                  simp at hf
              · rw [List.mem_singleton] at hf
                rw [hf]
                exact frameOk_upd _
              · exact ih (i + 1) f hf

theorem runExecPhase_ok (env : runEnv) (r : parseRes) (verbose : Bool)
    (gcs2 : List String) : ∀ f ∈ runExecPhase env r verbose gcs2, frameOk f := by
  intro f hf
  unfold runExecPhase at hf
  dsimp only at hf
  rw [List.mem_append] at hf
  by_cases hp : 0 < r.profArgs.length
  · rw [if_pos hp] at hf
    rcases hpl : profLoop r.profArgs
        (if r.execArgs.length = 0 then
          ["-test.v", "-test.run=-", "-test.bench=."]
         else r.execArgs) with ⟨fs, po⟩
    have hplok := profLoop_ok r.profArgs
      (if r.execArgs.length = 0 then
        ["-test.v", "-test.run=-", "-test.bench=."]
       else r.execArgs) f
    rw [hpl] at hf hplok
    rcases hf with hf | hf
    · exact hplok hf
    · rcases po with _ | execArgs1 <;> dsimp only at hf
      · simp at hf
      · rcases hr : env.renameErr with _ | e <;> rw [hr] at hf
        · exact runLoop_ok env verbose _ _ r.profArgs gcs2 0 f hf
        · exact fsErrFrames_ok (some e) f hf
  · rw [if_neg hp] at hf
    dsimp only at hf
    rcases hf with hf | hf
    · simp at hf
    · rcases hr : env.renameErr with _ | e <;> rw [hr] at hf
      · exact runLoop_ok env verbose _ _ r.profArgs gcs2 0 f hf
      · exact fsErrFrames_ok (some e) f hf

theorem handleRunBody_ok (env : runEnv) :
    ∀ f ∈ handleRunBody env, frameOk f := by
  intro f hf
  unfold handleRunBody at hf
  rw [List.mem_append, List.mem_singleton] at hf
  rcases hf with rfl | hf
  · exact frameOk_clear
  · rcases hw : env.writeErr with _ | e <;> rw [hw] at hf
    · rcases hp : parseFile env.parse env.extract env.quoteStr with ⟨fs, ro⟩
      have hpok := parseFile_ok env.parse env.extract env.quoteStr f
      rw [hp] at hf hpok
      rcases ro with _ | r <;> dsimp only at hf hpok
      · exact hpok hf
      · rw [List.mem_append] at hf
        rcases hf with hf | hf
        · exact hpok hf
        · rw [List.mem_append] at hf
          by_cases hg : r.gcs.length = 0
          · rw [if_pos hg] at hf
            dsimp only at hf
            rcases hf with hf | hf
            · simp at hf
            · exact runExecPhase_ok env r _ _ f hf
          · rw [if_neg hg] at hf
            rcases hgr : gcsResolve env.gcsMap r.gcs with ⟨fs2, go⟩
            have hgok := gcsResolve_ok env.gcsMap r.gcs f
            rw [hgr] at hf hgok
            rcases hf with hf | hf
            · dsimp only at hf
              rw [List.mem_append] at hf
              rcases hf with hf | hf
              · split at hf
                · rw [List.mem_singleton] at hf
                  rw [hf]
                  exact frameOk_upd _
                · simp at hf
              · exact hgok hf
            · rcases go with _ | gcs2 <;> dsimp only at hf
              · simp at hf
              · exact runExecPhase_ok env r _ _ f hf
    · dsimp only at hf
      exact fsErrFrames_ok (some e) f hf

theorem handleFormat_acts (env : fmtEnv) :
    handleFormat env = handleFormatBody env ++ [⟨statusStopped, ""⟩] := rfl

theorem handleRun_acts (env : runEnv) :
    handleRun env = handleRunBody env ++ [⟨statusStopped, ""⟩] := rfl

/-- **C4** (executor frame bracketing): for a `Format` or `Run` action
accepted by `Start` on a non-closed executor, over every environment
path — handler failure, directive-parser rejection, cancellation by
`Stop` — the action's frame sequence has `statusStarted` as its first
frame and nowhere later, and ends with exactly one `statusStopped` as
its final frame. -/
theorem executorFrameBracketing (action : String)
    (fenv : fmtEnv) (renv : runEnv)
    (hact : action = actionFormat ∨ action = actionRun) :
    (executorStart false action fenv renv).head? = some ⟨statusStarted, ""⟩ ∧
    (executorStart false action fenv renv).getLast? =
      some ⟨statusStopped, ""⟩ ∧
    (executorStart false action fenv renv).countP
      (fun f => f.act == statusStopped) = 1 ∧
    ∀ f ∈ (executorStart false action fenv renv).tail,
      f.act ≠ statusStarted := by
  have key : ∃ body : List Frame, (∀ f ∈ body, frameOk f) ∧
      executorStart false action fenv renv =
        ⟨statusStarted, ""⟩ :: (body ++ [⟨statusStopped, ""⟩]) := by
    rcases hact with rfl | rfl
    · refine ⟨handleFormatBody fenv, handleFormatBody_ok fenv, ?_⟩
      unfold executorStart
      rw [if_neg (by decide), if_pos rfl]
      rfl
    · refine ⟨handleRunBody renv, handleRunBody_ok renv, ?_⟩
      unfold executorStart
      rw [if_neg (by decide), if_neg (by decide : ¬actionRun = actionFormat),
        if_pos rfl]
      rfl
  obtain ⟨body, hbody, htr⟩ := key
  rw [htr]
  have h0 : List.countP (fun f => f.act == statusStopped)
      (⟨statusStarted, ""⟩ :: body) = 0 := by
    rw [List.countP_eq_zero]
    intro f hf
    rw [List.mem_cons] at hf
    rcases hf with rfl | hf
    · decide
    · simp only [beq_iff_eq]
      exact (hbody f hf).2
  refine ⟨rfl, ?_, ?_, ?_⟩
  · rw [← List.cons_append, List.getLast?_concat]
  · rw [← List.cons_append, List.countP_append, h0]
    decide
  · intro f hf
    rw [List.tail_cons, List.mem_append, List.mem_singleton] at hf
    rcases hf with hf | hf
    · exact (hbody f hf).1
    · rw [hf]
      exact (by decide : statusStopped ≠ statusStarted)

/-- A concrete `handleFormat` environment: all file and command
operations succeed. -/
def c4FmtEnv : fmtEnv :=
  ⟨none, [], none, [], .ok "package main\n\nfunc main() \x7b\x7d\n"⟩

/-- A concrete `handleRun` environment: a `package main` file with a
single `func main()`, no magic comments, all operations succeeding. -/
def c4RunEnv : runEnv where
  writeErr := none
  parse := ⟨false, "main", [], false, [⟨false, "main", 0, 0⟩]⟩
  extract := fun _ => none
  quoteStr := fun s => s
  gcsMap := fun _ => none
  gcDefault := "go"
  renameErr := none
  cancelled := fun _ => false
  buildOut := fun _ => []
  buildErr := fun _ => none
  buildStderr := fun _ => []
  execOut := fun _ => []
  execErr := fun _ => none
  prof := fun _ => ⟨none, [], none, fun _ => .empty⟩

theorem executorFrameBracketing_witness :
    (actionFormat = actionFormat ∨ actionFormat = actionRun) ∧
    ((executorStart false actionFormat c4FmtEnv c4RunEnv).head? =
        some ⟨statusStarted, ""⟩ ∧
      (executorStart false actionFormat c4FmtEnv c4RunEnv).getLast? =
        some ⟨statusStopped, ""⟩ ∧
      (executorStart false actionFormat c4FmtEnv c4RunEnv).countP
        (fun f => f.act == statusStopped) = 1 ∧
      ∀ f ∈ (executorStart false actionFormat c4FmtEnv c4RunEnv).tail,
        f.act ≠ statusStarted) :=
  ⟨Or.inl rfl,
    executorFrameBracketing actionFormat c4FmtEnv c4RunEnv (Or.inl rfl)⟩
